import Mathlib

/-!
Verification of the adaptive SSH command-execution engine and the persistent
SSH connection registry (`src/tools/ssh-command-manager.ts` and
`src/tools/ssh-session-manager.ts`).

JavaScript `Map` objects are embedded as insertion-ordered association lists
with string keys.  `Map.get` returns the value of the (unique) entry with the
given key, `Map.set` updates an existing entry in place (keeping its
insertion position) or appends a fresh entry at the end, and `Map.delete`
removes the entry with the given key.  All times are in whole milliseconds
since the epoch, so `Date.now()` and `new Date()` become explicit `Nat`
parameters.  The asynchronous completion-versus-timeout race inside
`executeCommand` is embedded as a fold of the event handlers (output-chunk
callbacks, the classification timer, promise fulfilment and rejection) over
an explicit event schedule; the three possible schedule shapes reflect that
the classification timer is cleared when completion wins the race.
-/

/-- Lookup in an insertion-ordered association list, mirroring `Map.get`. -/
def listGet {α : Type} : List (String × α) → String → Option α
  | [], _ => none
  | p :: rest, k => if p.1 == k then some p.2 else listGet rest k

/-- Update-or-append, mirroring `Map.set`: an existing entry keeps its
insertion position, a fresh key is appended at the end. -/
def listSet {α : Type} : List (String × α) → String → α → List (String × α)
  | [], k, v => [(k, v)]
  | p :: rest, k, v => if p.1 == k then (k, v) :: rest else p :: listSet rest k v

/-- Removal, mirroring `Map.delete`. -/
def listDelete {α : Type} : List (String × α) → String → List (String × α)
  | [], _ => []
  | p :: rest, k => if p.1 == k then rest else p :: listDelete rest k

/-- Key list of an association list. -/
def listKeys {α : Type} (m : List (String × α)) : List String := m.map Prod.fst

/-- Substring test on character lists: does `pat` occur starting at the head? -/
def leadsWith : List Char → List Char → Bool
  | [], _ => true
  | _ :: _, [] => false
  | a :: as, b :: bs => a == b && leadsWith as bs

/-- Substring occurrence test on character lists. -/
def occursAt : List Char → List Char → Bool
  | pat, [] => leadsWith pat []
  | pat, c :: cs => leadsWith pat (c :: cs) || occursAt pat cs

/-- JavaScript `String.prototype.includes`. -/
def jsIncludes (s pat : String) : Bool := occursAt pat.data s.data

/-- An active command session (`SSHCommandSession` in the source). -/
structure SSHCommandSession where
  id : String
  stdout : String
  stderr : String
  lastOutput : String
  isCompleted : Bool
  exitCode : Option Int
  isBlocked : Bool
  startTime : Nat
  deriving DecidableEq

/-- Result shape of `executeCommand` (`SSHCommandExecutionResult`). -/
structure SSHCommandExecutionResult where
  id : String
  output : String
  isBlocked : Bool
  exitCode : Option Int
  deriving DecidableEq

/-- A completed-ledger record (`CompletedSSHCommand`). -/
structure CompletedSSHCommand where
  id : String
  stdout : String
  stderr : String
  exitCode : Option Int
  startTime : Nat
  endTime : Nat
  deriving DecidableEq

/-- The mutable state of an `SSHCommandManager` instance. -/
structure CommandManagerState where
  sessions : List (String × SSHCommandSession)
  completedSessions : List (String × CompletedSSHCommand)
  sessionCounter : Nat
  deriving DecidableEq

/-- Result object fulfilled by `node-ssh`'s `execCommand` promise. -/
structure ExecResultJS where
  stdout : String
  stderr : String
  code : Option Int
  deriving DecidableEq

namespace SSHCommandManager

/-- JavaScript template interpolation of `exitCode` (`null` prints as "null"). -/
def showExitCode : Option Int → String
  | none => "null"
  | some n => toString n

/-- Decimal rendering of `deltaMs / 1000` as JavaScript prints that number:
an exact decimal with at most three fractional digits, trailing zeros (and a
bare point) omitted. -/
def jsMsDivThousand (deltaMs : Nat) : String :=
  let intPart := deltaMs / 1000
  let frac := deltaMs % 1000
  if frac == 0 then toString intPart
  else
    let padded :=
      if frac < 10 then "00" ++ toString frac
      else if frac < 100 then "0" ++ toString frac
      else toString frac
    let trimmed := padded.dropRightWhile (fun c => c == '0')
    toString intPart ++ "." ++ trimmed

/-- The completion report text built by `getNewOutput` (both branches build
the same shape, from a live session or from a ledger record). -/
def completionMessage (exitCode : Option Int) (runtimeMs : Nat)
    (stdout stderr : String) : String :=
  "SSH Command completed with exit code " ++ showExitCode exitCode ++
    "\nRuntime: " ++ jsMsDivThousand runtimeMs ++ "s\nFinal output:\n" ++ stdout ++
    (if stderr != "" then "\nErrors:\n" ++ stderr else "")

/-- The ledger record written by `storeCompletedSession`. -/
def completedOf (now : Nat) (sid : String) (s : SSHCommandSession) :
    CompletedSSHCommand :=
  { id := sid, stdout := s.stdout, stderr := s.stderr, exitCode := s.exitCode,
    startTime := s.startTime, endTime := now }

/-- Move a session into the completed ledger and drop it from the active map;
when the ledger then holds more than 100 records, the entry with the first
(oldest) key is deleted (`storeCompletedSession`). -/
def storeCompletedSession (now : Nat) (sid : String) (st : CommandManagerState) :
    CommandManagerState :=
  match listGet st.sessions sid with
  | none => st
  | some s =>
    let completed1 := listSet st.completedSessions sid (completedOf now sid s)
    let completed2 :=
      if 100 < completed1.length then
        match completed1.head? with
        | some p => listDelete completed1 p.1
        | none => completed1
      else completed1
    { st with sessions := listDelete st.sessions sid,
              completedSessions := completed2 }

/-- The `getNewOutput` operation; `none` is the JavaScript `null` return. -/
def getNewOutput (now : Nat) (sid : String) (st : CommandManagerState) :
    Option String × CommandManagerState :=
  match listGet st.sessions sid with
  | some s =>
    if s.isCompleted && s.isBlocked then
      let st1 := storeCompletedSession now sid st
      (some (completionMessage s.exitCode (now - s.startTime) s.stdout s.stderr), st1)
    else
      let st1 := { st with sessions := listSet st.sessions sid { s with lastOutput := "" } }
      (some (if s.lastOutput == "" then "No new output available" else s.lastOutput), st1)
  | none =>
    match listGet st.completedSessions sid with
    | some c =>
      (some (completionMessage c.exitCode (c.endTime - c.startTime) c.stdout c.stderr), st)
    | none => (none, st)

/-- The session-record mutation performed by `forceTerminate` before reaping. -/
def termSession (s : SSHCommandSession) : SSHCommandSession :=
  { s with isCompleted := true, exitCode := some 130,
           lastOutput := s.lastOutput ++ "\nCommand terminated by user." }

/-- The `forceTerminate` operation. -/
def forceTerminate (now : Nat) (sid : String) (st : CommandManagerState) :
    Bool × CommandManagerState :=
  match listGet st.sessions sid with
  | none => (false, st)
  | some s =>
    let st1 := { st with sessions := listSet st.sessions sid (termSession s) }
    (true, storeCompletedSession now sid st1)

/-- One row of the `listActiveSessions` result. -/
structure ActiveSessionInfo where
  id : String
  isBlocked : Bool
  runtime : Nat
  deriving DecidableEq

/-- The `listActiveSessions` operation: only blocked (streaming) sessions that
have not completed are listed. -/
def listActiveSessions (now : Nat) (st : CommandManagerState) :
    List ActiveSessionInfo :=
  (st.sessions.filter (fun p => p.2.isBlocked && !p.2.isCompleted)).map
    (fun p => { id := p.1, isBlocked := p.2.isBlocked,
                runtime := now - p.2.startTime })

/-- The id string built by `generateSessionId` from the timestamp and the
already-incremented counter. -/
def mkCmdId (timestamp counter : Nat) : String :=
  "ssh-cmd-" ++ Nat.repr timestamp ++ "-" ++ Nat.repr counter

/-- Fresh initial session record created by `executeCommand`. -/
def initSession (sid : String) (now : Nat) : SSHCommandSession :=
  { id := sid, stdout := "", stderr := "", lastOutput := "",
    isCompleted := false, exitCode := none, isBlocked := false, startTime := now }

/-- Id generation plus registration of the fresh session, i.e. the part of
`executeCommand` that runs before the promise executor. -/
def registerSession (now : Nat) (st : CommandManagerState) :
    String × CommandManagerState :=
  let counter := st.sessionCounter + 1
  let sid := mkCmdId now counter
  (sid, { st with sessionCounter := counter,
                  sessions := listSet st.sessions sid (initSession sid now) })

/-- An output chunk delivered to the `onStdout`/`onStderr` callbacks. -/
inductive OutChunk : Type
  | out (s : String)
  | err (s : String)
  deriving DecidableEq

/-- Concatenation of the stdout chunks, in delivery order. -/
def concatOuts : List OutChunk → String
  | [] => ""
  | OutChunk.out s :: cs => s ++ concatOuts cs
  | OutChunk.err _ :: cs => concatOuts cs

/-- Concatenation of the stderr chunks, in delivery order. -/
def concatErrs : List OutChunk → String
  | [] => ""
  | OutChunk.out _ :: cs => concatErrs cs
  | OutChunk.err s :: cs => s ++ concatErrs cs

/-- Concatenation of all chunks in delivery order (the `lastOutput` view). -/
def concatAll : List OutChunk → String
  | [] => ""
  | OutChunk.out s :: cs => s ++ concatAll cs
  | OutChunk.err s :: cs => s ++ concatAll cs

/-- One asynchronous event observed during a single `executeCommand` run. -/
inductive CmdEvent : Type
  | chunkOut (s : String)
  | chunkErr (s : String)
  | timerFire
  | completed (t : Nat) (res : ExecResultJS)
  | failed (t : Nat) (msg : String)
  deriving DecidableEq

/-- In-flight state of one `executeCommand` run: the manager state, the id of
the run's session, the promise executor's local `stdout`/`stderr` collectors,
and the list of values the promise has been resolved with. -/
structure RunState where
  mgr : CommandManagerState
  sid : String
  outLoc : String
  errLoc : String
  resolutions : List SSHCommandExecutionResult
  deriving DecidableEq

/-- The `onStdout` callback.  (The JavaScript closure mutates the session
object directly; the session is in the active map at every point a chunk can
arrive, so the map update is equivalent.) -/
def execChunkOutStep (text : String) (rs : RunState) : RunState :=
  match listGet rs.mgr.sessions rs.sid with
  | none => rs
  | some s =>
    let s1 : SSHCommandSession :=
      { s with stdout := s.stdout ++ text, lastOutput := s.lastOutput ++ text }
    { rs with
      mgr := { rs.mgr with sessions := listSet rs.mgr.sessions rs.sid s1 },
      outLoc := rs.outLoc ++ text }

/-- The `onStderr` callback. -/
def execChunkErrStep (text : String) (rs : RunState) : RunState :=
  match listGet rs.mgr.sessions rs.sid with
  | none => rs
  | some s =>
    let s1 : SSHCommandSession :=
      { s with stderr := s.stderr ++ text, lastOutput := s.lastOutput ++ text }
    { rs with
      mgr := { rs.mgr with sessions := listSet rs.mgr.sessions rs.sid s1 },
      errLoc := rs.errLoc ++ text }

/-- The classification-timeout callback: when the session has not completed,
mark it blocked (streaming) and resolve with the output so far. -/
def execTimerStep (rs : RunState) : RunState :=
  match listGet rs.mgr.sessions rs.sid with
  | none => rs
  | some s =>
    if s.isCompleted then rs
    else
      let s1 : SSHCommandSession := { s with isBlocked := true }
      { rs with
        mgr := { rs.mgr with sessions := listSet rs.mgr.sessions rs.sid s1 },
        resolutions := rs.resolutions ++
          [{ id := rs.sid, output := rs.outLoc ++ rs.errLoc,
             isBlocked := true, exitCode := none }] }

/-- The promise-fulfilment handler (`execPromise.then`): record completion,
merge any final output not already captured by the callbacks (the appended
delta is empty exactly when the `includes`-guarded branch is skipped), and,
when the timer has not classified the session as blocked, resolve with the
merged output and store the session in the completed ledger. -/
def execCompleteStep (t : Nat) (res : ExecResultJS) (rs : RunState) : RunState :=
  match listGet rs.mgr.sessions rs.sid with
  | none => rs
  | some s =>
    let dOut := if res.stdout != "" && !(jsIncludes rs.outLoc res.stdout)
                then res.stdout else ""
    let dErr := if res.stderr != "" && !(jsIncludes rs.errLoc res.stderr)
                then res.stderr else ""
    let s1 : SSHCommandSession :=
      { s with isCompleted := true, exitCode := res.code,
               stdout := s.stdout ++ dOut, stderr := s.stderr ++ dErr,
               lastOutput := s.lastOutput ++ dOut ++ dErr }
    let outM := rs.outLoc ++ dOut
    let errM := rs.errLoc ++ dErr
    let mgr1 := { rs.mgr with sessions := listSet rs.mgr.sessions rs.sid s1 }
    if s.isBlocked then
      { rs with mgr := mgr1, outLoc := outM, errLoc := errM }
    else
      { rs with mgr := storeCompletedSession t rs.sid mgr1,
                outLoc := outM, errLoc := errM,
                resolutions := rs.resolutions ++
                  [{ id := rs.sid, output := outM ++ errM,
                     isBlocked := false, exitCode := res.code }] }

/-- The promise-rejection handler (`execPromise.catch`): exit code 1, the
error message appended to stderr, and, when not already classified blocked,
a resolution plus the move into the completed ledger. -/
def execErrorStep (t : Nat) (msg : String) (rs : RunState) : RunState :=
  match listGet rs.mgr.sessions rs.sid with
  | none => rs
  | some s =>
    let em := "Error executing SSH command: " ++ msg
    let s1 : SSHCommandSession :=
      { s with isCompleted := true, exitCode := some 1,
               stderr := s.stderr ++ em, lastOutput := s.lastOutput ++ em }
    let errM := rs.errLoc ++ em
    let mgr1 := { rs.mgr with sessions := listSet rs.mgr.sessions rs.sid s1 }
    if s.isBlocked then
      { rs with mgr := mgr1, errLoc := errM }
    else
      { rs with mgr := storeCompletedSession t rs.sid mgr1,
                errLoc := errM,
                resolutions := rs.resolutions ++
                  [{ id := rs.sid, output := rs.outLoc ++ errM,
                     isBlocked := false, exitCode := some 1 }] }

/-- Dispatch one event to its handler. -/
def execEventStep (rs : RunState) (e : CmdEvent) : RunState :=
  match e with
  | CmdEvent.chunkOut s => execChunkOutStep s rs
  | CmdEvent.chunkErr s => execChunkErrStep s rs
  | CmdEvent.timerFire => execTimerStep rs
  | CmdEvent.completed t res => execCompleteStep t res rs
  | CmdEvent.failed t msg => execErrorStep t msg rs

/-- Terminal event of the underlying `execCommand` promise: fulfilment with a
result, or rejection with an error message, at a given time. -/
inductive RacerEnd : Type
  | success (t : Nat) (res : ExecResultJS)
  | failure (t : Nat) (msg : String)
  deriving DecidableEq

/-- The event of a `RacerEnd`. -/
def RacerEnd.event : RacerEnd → CmdEvent
  | RacerEnd.success t res => CmdEvent.completed t res
  | RacerEnd.failure t msg => CmdEvent.failed t msg

/-- The event of an `OutChunk`. -/
def OutChunk.event : OutChunk → CmdEvent
  | OutChunk.out s => CmdEvent.chunkOut s
  | OutChunk.err s => CmdEvent.chunkErr s

/-- The possible event orders of one `executeCommand` run.  Either the
promise settles before the internal timer (which is then cleared and never
fires), or the timer fires first — after which the command may still be
running, or may settle later. -/
inductive Schedule : Type
  | fast (chunks : List OutChunk) (fin : RacerEnd)
  | streamRunning (chunks : List OutChunk)
  | streamDone (pre post : List OutChunk) (fin : RacerEnd)
  deriving DecidableEq

/-- The event list of a schedule. -/
def Schedule.events : Schedule → List CmdEvent
  | Schedule.fast cs fin => cs.map OutChunk.event ++ [fin.event]
  | Schedule.streamRunning cs => cs.map OutChunk.event ++ [CmdEvent.timerFire]
  | Schedule.streamDone pre post fin =>
      pre.map OutChunk.event ++ CmdEvent.timerFire ::
        (post.map OutChunk.event ++ [fin.event])

/-- The run state right after `executeCommand` registers the fresh session. -/
def initRun (startT : Nat) (st : CommandManagerState) : RunState :=
  let r := registerSession startT st
  { mgr := r.2, sid := r.1, outLoc := "", errLoc := "", resolutions := [] }

/-- One whole `executeCommand` run: registration followed by the handlers
processing the run's events in order. -/
def executeCommand (startT : Nat) (st : CommandManagerState) (sched : Schedule) :
    RunState :=
  sched.events.foldl execEventStep (initRun startT st)

/-- All intermediate states of a run, including the initial one. -/
def runStates (startT : Nat) (st : CommandManagerState) (sched : Schedule) :
    List RunState :=
  sched.events.scanl execEventStep (initRun startT st)

end SSHCommandManager

/-! Concrete sample states used by counterexamples and witnesses. -/

/-- A streaming (blocked), still-running session with buffered output. -/
def sampleStreamingSession : SSHCommandSession :=
  { id := "s1", stdout := "hello", stderr := "", lastOutput := "partial",
    isCompleted := false, exitCode := none, isBlocked := true, startTime := 0 }

/-- Manager state holding just `sampleStreamingSession`. -/
def sampleStreamingState : CommandManagerState :=
  { sessions := [("s1", sampleStreamingSession)], completedSessions := [],
    sessionCounter := 1 }

/-- A streaming session that has already completed but has not been reaped. -/
def completedUnreapedSession : SSHCommandSession :=
  { id := "c1", stdout := "out", stderr := "", lastOutput := "",
    isCompleted := true, exitCode := some 0, isBlocked := true, startTime := 0 }

/-- Manager state holding just `completedUnreapedSession`. -/
def completedUnreapedState : CommandManagerState :=
  { sessions := [("c1", completedUnreapedSession)], completedSessions := [],
    sessionCounter := 1 }

/-- An active, not-completed session with unread output "abc". -/
def drainSession : SSHCommandSession :=
  { id := "d1", stdout := "abc", stderr := "", lastOutput := "abc",
    isCompleted := false, exitCode := none, isBlocked := true, startTime := 0 }

/-- Manager state holding just `drainSession`. -/
def drainState : CommandManagerState :=
  { sessions := [("d1", drainSession)], completedSessions := [],
    sessionCounter := 1 }

/-- A completed session awaiting storage, used by the ledger witness. -/
def fSession : SSHCommandSession :=
  { id := "f1", stdout := "done", stderr := "", lastOutput := "",
    isCompleted := true, exitCode := some 0, isBlocked := true, startTime := 0 }

/-- The i-th pre-existing ledger record of the full-ledger witness state. -/
def oldRecord (i : Nat) : CompletedSSHCommand :=
  { id := "old-" ++ Nat.repr i, stdout := "", stderr := "", exitCode := some 0,
    startTime := 0, endTime := 0 }

/-- A ledger already holding 100 records. -/
def fullLedger : List (String × CompletedSSHCommand) :=
  (List.range 100).map (fun i => ("old-" ++ Nat.repr i, oldRecord i))

/-- Manager state with a full ledger and one completed active session. -/
def fullLedgerState : CommandManagerState :=
  { sessions := [("f1", fSession)], completedSessions := fullLedger,
    sessionCounter := 101 }

/-- The empty command-manager state (a fresh `SSHCommandManager`). -/
def emptyCmdState : CommandManagerState :=
  { sessions := [], completedSessions := [], sessionCounter := 0 }

/-- Chunks of the concrete fast-run witness. -/
def wChunks : List SSHCommandManager.OutChunk :=
  [SSHCommandManager.OutChunk.out "A", SSHCommandManager.OutChunk.err "B"]

/-- Final result of the concrete fast-run witness (repeating the chunks, as
`node-ssh` does). -/
def wRes : ExecResultJS := { stdout := "A", stderr := "B", code := some 0 }

deriving instance DecidableEq for Except

/-- SSH connection configuration (`SSHConnectionConfig`). -/
structure SSHConnectionConfig where
  host : String
  port : Option Nat
  username : String
  password : Option String
  privateKeyPath : Option String
  passphrase : Option String
  deriving DecidableEq

/-- The mutable state of the persistent-session registry
(`SSHSessionManager`): the connection map (handles are opaque) and, for each
session, the absolute time at which its pending idle-eviction timer fires.
A `setTimeout` handle becomes its scheduled firing time; `clearTimeout` is
removal of the entry. -/
structure SessionManagerState where
  sessions : List (String × Unit)
  sessionTimeouts : List (String × Nat)
  deriving DecidableEq

namespace SSHSessionManager

/-- Default idle timeout: 30 minutes in milliseconds. -/
def DEFAULT_IDLE_TIMEOUT : Nat := 30 * 60 * 1000

/-- Cancel a pending idle timer (`clearIdleTimeout`). -/
def clearIdleTimeout (sid : String) (st : SessionManagerState) :
    SessionManagerState :=
  if (listGet st.sessionTimeouts sid).isSome then
    { st with sessionTimeouts := listDelete st.sessionTimeouts sid }
  else st

/-- Schedule idle eviction `timeout` ms from `now`, cancelling any prior
timer first (`setupIdleTimeout`). -/
def setupIdleTimeout (now : Nat) (sid : String) (timeout : Nat)
    (st : SessionManagerState) : SessionManagerState :=
  let st1 := clearIdleTimeout sid st
  { st1 with sessionTimeouts := listSet st1.sessionTimeouts sid (now + timeout) }

/-- Reset the idle timer on use (`resetIdleTimeout`).  The source reschedules
with `DEFAULT_IDLE_TIMEOUT` — not with the timeout the session was created
with — despite its own "Get the current timeout duration" comment. -/
def resetIdleTimeout (now : Nat) (sid : String) (st : SessionManagerState) :
    SessionManagerState :=
  match listGet st.sessionTimeouts sid with
  | some _ => setupIdleTimeout now sid DEFAULT_IDLE_TIMEOUT st
  | none => st

/-- Whether a session exists (`hasSession`). -/
def hasSession (st : SessionManagerState) (sid : String) : Bool :=
  (listGet st.sessions sid).isSome

/-- Close a session (`closeSession`): errors when the id is unknown,
otherwise cancels the timer, disposes the connection and removes the entry. -/
def closeSession (sid : String) (st : SessionManagerState) :
    Except String SessionManagerState :=
  match listGet st.sessions sid with
  | none => Except.error ("Failed to close SSH session: SSH session not found: " ++ sid)
  | some _ =>
    let st1 := clearIdleTimeout sid st
    Except.ok { st1 with sessions := listDelete st1.sessions sid }

/-- The idle timer firing at its scheduled time: the callback runs only while
still scheduled (a cleared timer never fires), and closes the session if it
still exists. -/
def fireIdleTimer (sid : String) (st : SessionManagerState) :
    SessionManagerState :=
  if (listGet st.sessionTimeouts sid).isSome then
    if hasSession st sid then
      match closeSession sid st with
      | Except.ok st1 => st1
      | Except.error _ => st
    else st
  else st

/-- The id string built by `generateSessionId` from the configuration, the
timestamp, and the random suffix (`Math.floor(Math.random() * 10000)`). -/
def generateSessionIdS (config : SSHConnectionConfig) (timestamp random : Nat) :
    String :=
  config.username ++ "@" ++ config.host ++ ":" ++
    Nat.repr (config.port.getD 22) ++ "-" ++ Nat.repr timestamp ++ "-" ++
    Nat.repr random

/-- Create a session (`createSession`): fails when neither a password nor a
private key is supplied, or when the connect attempt fails (`connect` stands
for the awaited `ssh.connect`); on success stores the connection and
schedules idle eviction with the given timeout or the 30-minute default. -/
def createSession (now random : Nat) (config : SSHConnectionConfig)
    (idleTimeout : Option Nat) (connect : Except String Unit)
    (st : SessionManagerState) :
    Except String String × SessionManagerState :=
  if config.password.isNone && config.privateKeyPath.isNone then
    (Except.error "Failed to create SSH session: Either password or privateKeyPath must be provided", st)
  else
    match connect with
    | Except.error e =>
      (Except.error ("Failed to create SSH session: " ++ e), st)
    | Except.ok _ =>
      let sid := generateSessionIdS config now random
      let st1 := { st with sessions := listSet st.sessions sid () }
      let st2 := setupIdleTimeout now sid (idleTimeout.getD DEFAULT_IDLE_TIMEOUT) st1
      (Except.ok sid, st2)

/-- Run a command in a session (`executeCommand`): unknown ids fail with the
wrapped "SSH session not found" error; otherwise the idle timer is reset and
the remote execution's outcome (`remote` stands for the awaited
`ssh.execCommand`) is returned, errors wrapped. -/
def executeCommandS (now : Nat) (sid : String)
    (remote : Except String ExecResultJS) (st : SessionManagerState) :
    Except String ExecResultJS × SessionManagerState :=
  match listGet st.sessions sid with
  | none =>
    (Except.error ("Failed to execute command in SSH session: SSH session not found: " ++ sid), st)
  | some _ =>
    let st1 := resetIdleTimeout now sid st
    match remote with
    | Except.ok r => (Except.ok r, st1)
    | Except.error e =>
      (Except.error ("Failed to execute command in SSH session: " ++ e), st1)

/-- Upload a file in a session (`uploadFile`). -/
def uploadFile (now : Nat) (sid : String) (transfer : Except String Unit)
    (st : SessionManagerState) : Except String Unit × SessionManagerState :=
  match listGet st.sessions sid with
  | none =>
    (Except.error ("Failed to upload file in SSH session: SSH session not found: " ++ sid), st)
  | some _ =>
    let st1 := resetIdleTimeout now sid st
    match transfer with
    | Except.ok _ => (Except.ok (), st1)
    | Except.error e =>
      (Except.error ("Failed to upload file in SSH session: " ++ e), st1)

/-- Download a file in a session (`downloadFile`). -/
def downloadFile (now : Nat) (sid : String) (transfer : Except String Unit)
    (st : SessionManagerState) : Except String Unit × SessionManagerState :=
  match listGet st.sessions sid with
  | none =>
    (Except.error ("Failed to download file in SSH session: SSH session not found: " ++ sid), st)
  | some _ =>
    let st1 := resetIdleTimeout now sid st
    match transfer with
    | Except.ok _ => (Except.ok (), st1)
    | Except.error e =>
      (Except.error ("Failed to download file in SSH session: " ++ e), st1)

end SSHSessionManager

/-- The empty session-manager state. -/
def emptySessState : SessionManagerState :=
  { sessions := [], sessionTimeouts := [] }

/-- Configuration of the concrete idle-timeout scenario. -/
def wConfig : SSHConnectionConfig :=
  { host := "h", port := none, username := "u", password := some "p",
    privateKeyPath := none, passphrase := none }

namespace SSHCommandManager

/-- A key is present in the active map or the completed ledger. -/
def inEither (st : CommandManagerState) (k : String) : Prop :=
  (listGet st.sessions k).isSome ∨ (listGet st.completedSessions k).isSome

/-- Each id lives in at most one of the active map and the ledger. -/
def InAtMostOne (st : CommandManagerState) : Prop :=
  ∀ k, ¬((listGet st.sessions k).isSome ∧
    (listGet st.completedSessions k).isSome)

/-- Every key of either map was produced by `generateSessionId` with a
counter value no greater than the current one. -/
def CounterDominates (st : CommandManagerState) : Prop :=
  ∀ k, inEither st k → ∃ t c, c ≤ st.sessionCounter ∧ k = mkCmdId t c

/-- Key lists of both maps are duplicate-free (a JavaScript `Map` never
holds two entries with one key). -/
def KeysNodup (st : CommandManagerState) : Prop :=
  (listKeys st.sessions).Nodup ∧ (listKeys st.completedSessions).Nodup

/-- The manager's reachable-state invariant. -/
def MgrInv (st : CommandManagerState) : Prop :=
  KeysNodup st ∧ InAtMostOne st ∧ CounterDominates st

/-- Shape of an in-flight run that has not (yet) stored its session: only
the run's own session entry differs from the pre-run manager state, the
ledger is untouched, and the counter was bumped once at registration. -/
def RunShape (st0 : CommandManagerState) (sid : String) (rs : RunState) : Prop :=
  rs.sid = sid ∧
  rs.mgr.completedSessions = st0.completedSessions ∧
  rs.mgr.sessionCounter = st0.sessionCounter + 1 ∧
  ∃ sv, rs.mgr.sessions = listSet st0.sessions sid sv

/-- One externally triggered operation of the command manager. -/
inductive MgrOp : Type
  | getOut (now : Nat) (sid : String)
  | forceTerm (now : Nat) (sid : String)
  | execRun (startT : Nat) (sched : Schedule)

/-- State transition of one operation. -/
def applyOp : MgrOp → CommandManagerState → CommandManagerState
  | MgrOp.getOut now sid, st => (getNewOutput now sid st).2
  | MgrOp.forceTerm now sid, st => (forceTerminate now sid st).2
  | MgrOp.execRun startT sched, st => (executeCommand startT st sched).mgr

end SSHCommandManager

/-! ### Theorems -/

theorem listGet_set_self {α : Type} (m : List (String × α)) (k : String) (v : α) :
    listGet (listSet m k v) k = some v := by
  induction m with
  | nil => simp [listGet, listSet]
  | cons p rest ih =>
    by_cases h : p.1 == k
    · simp [listGet, listSet, h]
    · simp [listGet, listSet, h, ih]

theorem listGet_set_ne {α : Type} (m : List (String × α)) (k k' : String) (v : α)
    (h : k' ≠ k) : listGet (listSet m k v) k' = listGet m k' := by
  induction m with
  | nil => simp [listSet, listGet, beq_iff_eq, Ne.symm h]
  | cons p rest ih =>
    by_cases hp : p.1 == k
    · have hpk : p.1 = k := by simpa [beq_iff_eq] using hp
      simp [listGet, listSet, hp, hpk, beq_iff_eq, h, Ne.symm h]
    · by_cases hp' : p.1 == k'
      · simp [listGet, listSet, hp, hp']
      · simp [listGet, listSet, hp, hp', ih]

theorem listGet_delete_ne {α : Type} (m : List (String × α)) (k k' : String)
    (h : k' ≠ k) : listGet (listDelete m k) k' = listGet m k' := by
  induction m with
  | nil => simp [listDelete, listGet]
  | cons p rest ih =>
    by_cases hp : p.1 == k
    · have hpk : p.1 = k := by simpa [beq_iff_eq] using hp
      simp [listDelete, listGet, hp, hpk, beq_iff_eq, Ne.symm h]
    · by_cases hp' : p.1 == k'
      · simp [listDelete, listGet, hp, hp']
      · simp [listDelete, listGet, hp, hp', ih]

theorem listGet_eq_none_iff {α : Type} (m : List (String × α)) (k : String) :
    listGet m k = none ↔ ∀ p ∈ m, p.1 ≠ k := by
  induction m with
  | nil => simp [listGet]
  | cons p rest ih =>
    by_cases hp : p.1 == k
    · have hpk : p.1 = k := by simpa [beq_iff_eq] using hp
      simp [listGet, hp, hpk]
    · have hpk : p.1 ≠ k := by simpa [beq_iff_eq] using hp
      simp [listGet, hp, hpk, ih]

theorem listSet_of_none {α : Type} (m : List (String × α)) (k : String) (v : α)
    (h : listGet m k = none) : listSet m k v = m ++ [(k, v)] := by
  induction m with
  | nil => simp [listSet]
  | cons p rest ih =>
    by_cases hp : p.1 == k
    · simp [listGet, hp] at h
    · simp only [listGet, hp, if_neg, Bool.false_eq_true, not_false_iff] at h
      simp [listSet, hp, ih h]

theorem listDelete_of_none {α : Type} (m : List (String × α)) (k : String)
    (h : listGet m k = none) : listDelete m k = m := by
  induction m with
  | nil => simp [listDelete]
  | cons p rest ih =>
    by_cases hp : p.1 == k
    · simp [listGet, hp] at h
    · simp only [listGet, hp, if_neg, Bool.false_eq_true, not_false_iff] at h
      simp [listDelete, hp, ih h]

theorem listGet_isSome_iff_mem_keys {α : Type} (m : List (String × α)) (k : String) :
    (listGet m k).isSome ↔ k ∈ listKeys m := by
  induction m with
  | nil => simp [listGet, listKeys]
  | cons p rest ih =>
    by_cases hp : p.1 == k
    · have hpk : p.1 = k := by simpa [beq_iff_eq] using hp
      simp [listGet, listKeys, hp, hpk]
    · have hpk : p.1 ≠ k := by simpa [beq_iff_eq] using hp
      simp [listGet, listKeys, hp, ih, listKeys, Ne.symm hpk]

theorem listGet_delete_self {α : Type} (m : List (String × α)) (k : String)
    (h : (listKeys m).Nodup) : listGet (listDelete m k) k = none := by
  induction m with
  | nil => simp [listDelete, listGet]
  | cons p rest ih =>
    simp only [listKeys, List.map_cons, List.nodup_cons] at h
    by_cases hp : p.1 == k
    · have hpk : p.1 = k := by simpa [beq_iff_eq] using hp
      rw [listDelete, if_pos hp, listGet_eq_none_iff]
      intro q hq hqk
      exact h.1 (by subst hpk; rw [← hqk]; exact List.mem_map_of_mem Prod.fst hq)
    · rw [listDelete, if_neg (by simpa using hp), listGet, if_neg hp]
      exact ih h.2

theorem leadsWith_self (l : List Char) : leadsWith l l = true := by
  induction l with
  | nil => rfl
  | cons c cs ih => simp [leadsWith, ih]

theorem jsIncludes_self (s : String) : jsIncludes s s = true := by
  unfold jsIncludes
  cases h : s.data with
  | nil => simp [occursAt, leadsWith]
  | cons c cs => simp [occursAt, ← h, leadsWith_self]

open SSHCommandManager in
/-- C1: refuted on the code. `forceTerminate` on an active session does set
exit code 130, and appends the "Command terminated by user." marker to the
session's `lastOutput` — but it then immediately calls
`storeCompletedSession`, which snapshots only `stdout`/`stderr` into the
ledger and removes the session from the active map.  The next `getNewOutput`
therefore serves the ledger's completion report, which contains "exit code
130" but not the termination marker: the marker text is unreachable. -/
theorem forceTerminate_marker_unreachable :
    (forceTerminate 5000 "s1" sampleStreamingState).1 = true ∧
    (getNewOutput 6000 "s1" (forceTerminate 5000 "s1" sampleStreamingState).2).1 =
      some "SSH Command completed with exit code 130\nRuntime: 5s\nFinal output:\nhello" ∧
    jsIncludes
      "SSH Command completed with exit code 130\nRuntime: 5s\nFinal output:\nhello"
      "exit code 130" = true ∧
    jsIncludes
      "SSH Command completed with exit code 130\nRuntime: 5s\nFinal output:\nhello"
      "Command terminated by user" = false :=
  ⟨rfl, by decide, by decide, by decide⟩

open SSHCommandManager in
/-- C3 counterexample: a Streaming-classified session that has already
completed (`isCompleted = true`) but has not yet been reaped is still in the
active map, and `forceTerminate` on it returns `true`, not `false` as the
claim states (it even overwrites the recorded exit code with 130). -/
theorem forceTerminate_completed_unreaped_returns_true :
    completedUnreapedSession.isCompleted = true ∧
    completedUnreapedSession.isBlocked = true ∧
    (forceTerminate 10 "c1" completedUnreapedState).1 ≠ false :=
  ⟨rfl, rfl, by decide⟩

open SSHCommandManager in
/-- C3 amended: `forceTerminate` returns `true` exactly when the id is in the
active-session map — so it returns `false` for unknown ids and for ids found
only in the completed ledger, but `true` for any active-map session, even one
that has already completed and merely awaits reaping. -/
theorem forceTerminate_true_iff_active (now : Nat) (sid : String)
    (st : CommandManagerState) :
    (forceTerminate now sid st).1 = (listGet st.sessions sid).isSome := by
  unfold forceTerminate
  cases listGet st.sessions sid <;> rfl

open SSHCommandManager in
/-- C5: `getNewOutput` is idempotent-draining on an active, not-yet-completed
session: the first call returns the unread buffer (or the "No new output
available" sentinel when the buffer is empty, never the empty string) and
clears the buffer; a second call with nothing delivered in between returns
the sentinel; and an id in neither the active map nor the ledger yields the
distinct not-found result `none`. -/
theorem getNewOutput_drains (now now2 : Nat) (sid : String)
    (st : CommandManagerState) (s : SSHCommandSession)
    (hs : listGet st.sessions sid = some s) (hnc : s.isCompleted = false) :
    (getNewOutput now sid st).1 =
      some (if s.lastOutput == "" then "No new output available" else s.lastOutput) ∧
    (getNewOutput now sid st).1 ≠ some "" ∧
    listGet (getNewOutput now sid st).2.sessions sid = some { s with lastOutput := "" } ∧
    (getNewOutput now2 sid (getNewOutput now sid st).2).1 =
      some "No new output available" ∧
    (∀ now' sid' st', listGet (CommandManagerState.sessions st') sid' = none →
        listGet (CommandManagerState.completedSessions st') sid' = none →
        getNewOutput now' sid' st' = (none, st')) := by
  have hfirst : getNewOutput now sid st =
      (some (if s.lastOutput == "" then "No new output available" else s.lastOutput),
       { st with sessions := listSet st.sessions sid { s with lastOutput := "" } }) := by
    unfold getNewOutput
    rw [hs]
    simp [hnc]
  refine ⟨by rw [hfirst], ?_, ?_, ?_, ?_⟩
  · rw [hfirst]
    by_cases hb : s.lastOutput == ""
    · simp [hb]
    · simp only [hb, if_neg, Bool.false_eq_true, not_false_iff, ne_eq,
        Option.some.injEq]
      simpa [beq_iff_eq] using hb
  · rw [hfirst]
    exact listGet_set_self st.sessions sid { s with lastOutput := "" }
  · rw [hfirst]
    unfold getNewOutput
    rw [listGet_set_self st.sessions sid { s with lastOutput := "" }]
    simp [hnc]
  · intro now' sid' st' hs' hc'
    unfold getNewOutput
    rw [hs', hc']

open SSHCommandManager in
/-- Witness for the hypotheses of `getNewOutput_drains` at a concrete state. -/
theorem getNewOutput_drains_witness :
    listGet drainState.sessions "d1" = some drainSession ∧
    drainSession.isCompleted = false ∧
    ((getNewOutput 1 "d1" drainState).1 =
       some (if drainSession.lastOutput == "" then "No new output available"
             else drainSession.lastOutput) ∧
     (getNewOutput 1 "d1" drainState).1 ≠ some "" ∧
     listGet (getNewOutput 1 "d1" drainState).2.sessions "d1" =
       some { drainSession with lastOutput := "" } ∧
     (getNewOutput 2 "d1" (getNewOutput 1 "d1" drainState).2).1 =
       some "No new output available" ∧
     (∀ now' sid' st', listGet (CommandManagerState.sessions st') sid' = none →
         listGet (CommandManagerState.completedSessions st') sid' = none →
         getNewOutput now' sid' st' = (none, st'))) :=
  ⟨rfl, rfl, getNewOutput_drains 1 2 "d1" drainState drainSession rfl rfl⟩

theorem listDelete_cons_self {α : Type} (k : String) (v : α)
    (rest : List (String × α)) : listDelete ((k, v) :: rest) k = rest := by
  simp [listDelete]

open SSHCommandManager in
/-- C6: the completed ledger never exceeds 100 entries: storing a completion
into a ledger of at most 100 records leaves at most 100 records, and when the
ledger already holds exactly 100 records the insertion evicts exactly the
oldest record (the first by insertion order), leaving the remaining 99 plus
the new record untouched and in order. -/
theorem ledger_bounded_and_evicts_oldest (now : Nat) (sid : String)
    (st : CommandManagerState) (s : SSHCommandSession)
    (hs : listGet st.sessions sid = some s)
    (hfresh : listGet st.completedSessions sid = none)
    (hle : st.completedSessions.length ≤ 100) :
    (storeCompletedSession now sid st).completedSessions.length ≤ 100 ∧
    (st.completedSessions.length = 100 →
      (storeCompletedSession now sid st).completedSessions =
        st.completedSessions.tail ++ [(sid, completedOf now sid s)]) := by
  have h1 : listSet st.completedSessions sid (completedOf now sid s)
      = st.completedSessions ++ [(sid, completedOf now sid s)] :=
    listSet_of_none _ _ _ hfresh
  unfold storeCompletedSession
  rw [hs]
  simp only [h1, List.length_append, List.length_cons, List.length_nil]
  by_cases hlen : 100 < st.completedSessions.length + 1
  · have h100 : st.completedSessions.length = 100 := by omega
    obtain ⟨p, rest, hpr⟩ : ∃ p rest, st.completedSessions = p :: rest := by
      cases hc : st.completedSessions with
      | nil => rw [hc] at h100; simp at h100
      | cons p rest => exact ⟨p, rest, rfl⟩
    have hhead : (st.completedSessions ++ [(sid, completedOf now sid s)]).head?
        = some p := by rw [hpr]; rfl
    have hdel : listDelete (st.completedSessions ++ [(sid, completedOf now sid s)]) p.1
        = rest ++ [(sid, completedOf now sid s)] := by
      rw [hpr]
      exact listDelete_cons_self p.1 p.2 (rest ++ [(sid, completedOf now sid s)])
    simp only [if_pos hlen, hhead, hdel]
    constructor
    · have : rest.length + 1 = 100 := by
        have := h100
        rw [hpr] at this
        simpa using this
      simp [List.length_append]
      omega
    · intro _
      rw [hpr]
      rfl
  · simp only [if_neg hlen]
    constructor
    · simp only [List.length_append, List.length_cons, List.length_nil]
      omega
    · intro h100
      omega

open SSHCommandManager in
/-- Witness for `ledger_bounded_and_evicts_oldest` on a concrete state whose
ledger holds exactly 100 records. -/
theorem ledger_bounded_witness :
    listGet fullLedgerState.sessions "f1" = some fSession ∧
    listGet fullLedgerState.completedSessions "f1" = none ∧
    fullLedgerState.completedSessions.length ≤ 100 ∧
    ((storeCompletedSession 7 "f1" fullLedgerState).completedSessions.length ≤ 100 ∧
     (fullLedgerState.completedSessions.length = 100 →
       (storeCompletedSession 7 "f1" fullLedgerState).completedSessions =
         fullLedgerState.completedSessions.tail ++ [("f1", completedOf 7 "f1" fSession)])) :=
  ⟨by decide, by decide, by decide,
   ledger_bounded_and_evicts_oldest 7 "f1" fullLedgerState fSession
     (by decide) (by decide) (by decide)⟩

theorem listSet_eq_of_get {α : Type} (m : List (String × α)) (k : String) (v : α)
    (h : listGet m k = some v) : listSet m k v = m := by
  induction m with
  | nil => simp [listGet] at h
  | cons p rest ih =>
    by_cases hp : p.1 == k
    · obtain ⟨p1, p2⟩ := p
      have hpk : p1 = k := by simpa [beq_iff_eq] using hp
      simp only [listGet, hp, if_pos, Option.some.injEq] at h
      simp [listSet, hp, hpk, h]
    · simp only [listGet, hp, Bool.false_eq_true, if_false] at h
      simp [listSet, hp, ih h]

theorem listSet_set {α : Type} (m : List (String × α)) (k : String) (a b : α) :
    listSet (listSet m k a) k b = listSet m k b := by
  induction m with
  | nil => simp [listSet]
  | cons p rest ih =>
    by_cases hp : p.1 == k
    · simp [listSet, hp]
    · simp [listSet, hp, ih]

namespace SSHCommandManager

theorem chunksFold (cs : List OutChunk) (rs : RunState) (s : SSHCommandSession)
    (hs : listGet rs.mgr.sessions rs.sid = some s) :
    (cs.map OutChunk.event).foldl execEventStep rs =
      { rs with
        mgr := ({ rs.mgr with sessions := (listSet rs.mgr.sessions rs.sid
          { s with stdout := s.stdout ++ concatOuts cs,
                   stderr := s.stderr ++ concatErrs cs,
                   lastOutput := s.lastOutput ++ concatAll cs }) }),
        outLoc := rs.outLoc ++ concatOuts cs,
        errLoc := rs.errLoc ++ concatErrs cs } := by
  induction cs generalizing rs s with
  | nil =>
    simp only [List.map_nil, List.foldl_nil, concatOuts, concatErrs, concatAll,
      String.append_empty]
    rw [listSet_eq_of_get _ _ _ hs]
  | cons c cs ih =>
    cases c with
    | out text =>
      simp only [List.map_cons, List.foldl_cons, OutChunk.event, execEventStep,
        execChunkOutStep, hs, concatOuts, concatErrs, concatAll]
      rw [ih _ ({ s with stdout := s.stdout ++ text,
                         lastOutput := s.lastOutput ++ text })
            (by simpa using listGet_set_self rs.mgr.sessions rs.sid _)]
      simp [listSet_set, String.append_assoc]
    | err text =>
      simp only [List.map_cons, List.foldl_cons, OutChunk.event, execEventStep,
        execChunkErrStep, hs, concatOuts, concatErrs, concatAll]
      rw [ih _ ({ s with stderr := s.stderr ++ text,
                         lastOutput := s.lastOutput ++ text })
            (by simpa using listGet_set_self rs.mgr.sessions rs.sid _)]
      simp [listSet_set, String.append_assoc]

end SSHCommandManager

namespace SSHCommandManager

/-- Run-lifecycle predicate: the session is registered and still racing
(neither completed nor classified blocked). -/
def Racing (rs : RunState) : Prop :=
  ∃ s, listGet rs.mgr.sessions rs.sid = some s ∧
    s.isCompleted = false ∧ s.isBlocked = false

/-- Run-lifecycle predicate: the timer has classified the session blocked and
the command is still running. -/
def BlockedRunning (rs : RunState) : Prop :=
  ∃ s, listGet rs.mgr.sessions rs.sid = some s ∧
    s.isCompleted = false ∧ s.isBlocked = true

theorem initRun_get (startT : Nat) (st : CommandManagerState) :
    listGet (initRun startT st).mgr.sessions (initRun startT st).sid =
      some (initSession (mkCmdId startT (st.sessionCounter + 1)) startT) := by
  simp [initRun, registerSession, listGet_set_self]

theorem initRun_racing (startT : Nat) (st : CommandManagerState) :
    Racing (initRun startT st) ∧ (initRun startT st).resolutions = [] := by
  refine ⟨⟨initSession (mkCmdId startT (st.sessionCounter + 1)) startT,
    initRun_get startT st, rfl, rfl⟩, rfl⟩

theorem chunk_step_racing (c : OutChunk) (rs : RunState) (h : Racing rs) :
    Racing (execEventStep rs c.event) ∧
      (execEventStep rs c.event).resolutions = rs.resolutions := by
  obtain ⟨s, hs, h1, h2⟩ := h
  cases c with
  | out text =>
    simp only [OutChunk.event, execEventStep, execChunkOutStep, hs]
    refine ⟨⟨{ s with stdout := s.stdout ++ text, lastOutput := s.lastOutput ++ text }, ?_, h1, h2⟩, by simp⟩
    simpa using listGet_set_self rs.mgr.sessions rs.sid _
  | err text =>
    simp only [OutChunk.event, execEventStep, execChunkErrStep, hs]
    refine ⟨⟨{ s with stderr := s.stderr ++ text, lastOutput := s.lastOutput ++ text }, ?_, h1, h2⟩, by simp⟩
    simpa using listGet_set_self rs.mgr.sessions rs.sid _

theorem chunk_step_blocked (c : OutChunk) (rs : RunState) (h : BlockedRunning rs) :
    BlockedRunning (execEventStep rs c.event) ∧
      (execEventStep rs c.event).resolutions = rs.resolutions := by
  obtain ⟨s, hs, h1, h2⟩ := h
  cases c with
  | out text =>
    simp only [OutChunk.event, execEventStep, execChunkOutStep, hs]
    refine ⟨⟨{ s with stdout := s.stdout ++ text, lastOutput := s.lastOutput ++ text }, ?_, h1, h2⟩, by simp⟩
    simpa using listGet_set_self rs.mgr.sessions rs.sid _
  | err text =>
    simp only [OutChunk.event, execEventStep, execChunkErrStep, hs]
    refine ⟨⟨{ s with stderr := s.stderr ++ text, lastOutput := s.lastOutput ++ text }, ?_, h1, h2⟩, by simp⟩
    simpa using listGet_set_self rs.mgr.sessions rs.sid _

theorem chunks_fold_racing (cs : List OutChunk) (rs : RunState) (h : Racing rs) :
    Racing ((cs.map OutChunk.event).foldl execEventStep rs) ∧
      ((cs.map OutChunk.event).foldl execEventStep rs).resolutions =
        rs.resolutions := by
  induction cs generalizing rs with
  | nil => exact ⟨h, rfl⟩
  | cons c cs ih =>
    obtain ⟨h1, h2⟩ := chunk_step_racing c rs h
    obtain ⟨h3, h4⟩ := ih (execEventStep rs c.event) h1
    exact ⟨h3, by simpa [h2] using h4⟩

theorem chunks_fold_blocked (cs : List OutChunk) (rs : RunState)
    (h : BlockedRunning rs) :
    BlockedRunning ((cs.map OutChunk.event).foldl execEventStep rs) ∧
      ((cs.map OutChunk.event).foldl execEventStep rs).resolutions =
        rs.resolutions := by
  induction cs generalizing rs with
  | nil => exact ⟨h, rfl⟩
  | cons c cs ih =>
    obtain ⟨h1, h2⟩ := chunk_step_blocked c rs h
    obtain ⟨h3, h4⟩ := ih (execEventStep rs c.event) h1
    exact ⟨h3, by simpa [h2] using h4⟩

theorem timer_step_racing (rs : RunState) (h : Racing rs) :
    BlockedRunning (execEventStep rs CmdEvent.timerFire) ∧
      (execEventStep rs CmdEvent.timerFire).resolutions =
        rs.resolutions ++
          [{ id := rs.sid, output := rs.outLoc ++ rs.errLoc,
             isBlocked := true, exitCode := none }] := by
  obtain ⟨s, hs, h1, h2⟩ := h
  simp only [execEventStep, execTimerStep, hs]
  rw [if_neg (by simp [h1])]
  refine ⟨⟨{ s with isBlocked := true }, ?_, h1, rfl⟩, by simp⟩
  simpa using listGet_set_self rs.mgr.sessions rs.sid _

theorem end_step_racing (fin : RacerEnd) (rs : RunState) (h : Racing rs) :
    ∃ x, (execEventStep rs fin.event).resolutions = rs.resolutions ++ [x] := by
  obtain ⟨s, hs, h1, h2⟩ := h
  cases fin with
  | success t res =>
    simp only [RacerEnd.event, execEventStep, execCompleteStep, hs, h2,
      Bool.false_eq_true, if_false]
    exact ⟨_, rfl⟩
  | failure t msg =>
    simp only [RacerEnd.event, execEventStep, execErrorStep, hs, h2,
      Bool.false_eq_true, if_false]
    exact ⟨_, rfl⟩

theorem end_step_blocked (fin : RacerEnd) (rs : RunState) (h : BlockedRunning rs) :
    (execEventStep rs fin.event).resolutions = rs.resolutions := by
  obtain ⟨s, hs, h1, h2⟩ := h
  cases fin with
  | success t res =>
    simp only [RacerEnd.event, execEventStep, execCompleteStep, hs, h2, if_true]
  | failure t msg =>
    simp only [RacerEnd.event, execEventStep, execErrorStep, hs, h2, if_true]

end SSHCommandManager

open SSHCommandManager in
/-- C9: the promise of every `executeCommand` run is resolved exactly once,
under every possible schedule: completion before the timer, timer with the
command still running, or timer followed by late completion — whichever of
the timeout and completion events comes second only updates internal session
state and never yields a second resolution. -/
theorem executeCommand_single_resolution (startT : Nat) (st : CommandManagerState)
    (sched : Schedule) :
    (executeCommand startT st sched).resolutions.length = 1 := by
  obtain ⟨hrace, hres⟩ := initRun_racing startT st
  cases sched with
  | fast cs fin =>
    unfold executeCommand Schedule.events
    rw [List.foldl_append]
    obtain ⟨h1, h2⟩ := chunks_fold_racing cs (initRun startT st) hrace
    obtain ⟨x, hx⟩ := end_step_racing fin _ h1
    simp [List.foldl_cons, List.foldl_nil, hx, h2, hres]
  | streamRunning cs =>
    unfold executeCommand Schedule.events
    rw [List.foldl_append]
    obtain ⟨h1, h2⟩ := chunks_fold_racing cs (initRun startT st) hrace
    obtain ⟨h3, h4⟩ := timer_step_racing _ h1
    simp [List.foldl_cons, List.foldl_nil, h4, h2, hres]
  | streamDone pre post fin =>
    unfold executeCommand Schedule.events
    rw [List.foldl_append]
    obtain ⟨h1, h2⟩ := chunks_fold_racing pre (initRun startT st) hrace
    obtain ⟨h3, h4⟩ := timer_step_racing _ h1
    rw [List.foldl_cons, List.foldl_append]
    obtain ⟨h5, h6⟩ := chunks_fold_blocked post _ h3
    have h7 := end_step_blocked fin _ h5
    simp [List.foldl_cons, List.foldl_nil, h7, h6, h4, h2, hres]

open SSHCommandManager in
/-- C8: when the underlying execution rejects before classification (a fast
failure), `executeCommand` resolves rather than propagating the exception:
the single resolution is Fast-shaped (`isBlocked = false`) with exit code 1
and the error message appended to the stderr side of the output. -/
theorem executeCommand_error_folded (startT t : Nat) (st : CommandManagerState)
    (cs : List OutChunk) (msg : String) :
    (executeCommand startT st (Schedule.fast cs (RacerEnd.failure t msg))).resolutions =
      [{ id := mkCmdId startT (st.sessionCounter + 1),
         output := concatOuts cs ++ (concatErrs cs ++ ("Error executing SSH command: " ++ msg)),
         isBlocked := false, exitCode := some 1 }] := by
  unfold executeCommand Schedule.events
  rw [List.foldl_append, chunksFold cs _ _ (initRun_get startT st)]
  simp [RacerEnd.event, execEventStep, execErrorStep, listGet_set_self, initRun,
    registerSession, initSession]

theorem listGet_mem {α : Type} (m : List (String × α)) (k : String) (v : α)
    (h : listGet m k = some v) : (k, v) ∈ m := by
  induction m with
  | nil => simp [listGet] at h
  | cons p rest ih =>
    by_cases hp : p.1 == k
    · have hpk : p.1 = k := by simpa [beq_iff_eq] using hp
      simp only [listGet, hp, if_pos, Option.some.injEq] at h
      have hpe : p = (k, v) := by
        obtain ⟨p1, p2⟩ := p
        simp only at hpk h
        rw [hpk, h]
      rw [← hpe]
      exact List.mem_cons_self p rest
    · simp only [listGet, hp, Bool.false_eq_true, if_false] at h
      exact List.mem_cons_of_mem p (ih h)

theorem mem_listSet {α : Type} (m : List (String × α)) (k : String) (v : α)
    (p : String × α) (h : p ∈ listSet m k v) : p ∈ m ∨ p = (k, v) := by
  induction m with
  | nil => simp [listSet] at h; right; exact h
  | cons q rest ih =>
    by_cases hq : q.1 == k
    · simp only [listSet, hq, if_pos, List.mem_cons] at h
      rcases h with h | h
      · right; exact h
      · left; exact List.mem_cons_of_mem q h
    · simp only [listSet, hq, Bool.false_eq_true, if_false, List.mem_cons] at h
      rcases h with h | h
      · left; exact h ▸ List.mem_cons_self q rest
      · rcases ih h with h' | h'
        · left; exact List.mem_cons_of_mem q h'
        · right; exact h'

theorem mem_listDelete {α : Type} (m : List (String × α)) (k : String)
    (p : String × α) (h : p ∈ listDelete m k) : p ∈ m := by
  induction m with
  | nil => simp [listDelete] at h
  | cons q rest ih =>
    by_cases hq : q.1 == k
    · simp only [listDelete, hq, if_pos] at h
      exact List.mem_cons_of_mem q h
    · simp only [listDelete, hq, Bool.false_eq_true, if_false, List.mem_cons] at h
      rcases h with h | h
      · exact h ▸ List.mem_cons_self q rest
      · exact List.mem_cons_of_mem q (ih h)

theorem listDelete_append_self {α : Type} (m : List (String × α)) (k : String)
    (v : α) (h : listGet m k = none) : listDelete (m ++ [(k, v)]) k = m := by
  induction m with
  | nil => simp [listDelete]
  | cons p rest ih =>
    by_cases hp : p.1 == k
    · simp [listGet, hp] at h
    · simp only [listGet, hp, Bool.false_eq_true, if_false] at h
      simp [listDelete, hp, ih h]

/-- All states of a scan satisfy an invariant preserved by every step. -/
theorem scanl_all {β σ : Type} (P : σ → Prop) (step : σ → β → σ)
    (evs : List β) (s0 : σ) (h0 : P s0)
    (hstep : ∀ s e, e ∈ evs → P s → P (step s e)) :
    ∀ x ∈ evs.scanl step s0, P x := by
  induction evs generalizing s0 with
  | nil =>
    intro x hx
    simp only [List.scanl, List.mem_singleton] at hx
    subst hx
    exact h0
  | cons e evs ih =>
    intro x hx
    rw [List.scanl] at hx
    rcases List.mem_cons.mp hx with h | h
    · exact h ▸ h0
    · exact ih (step s0 e)
        (hstep s0 e (List.mem_cons_self e evs) h0)
        (fun s e' he' => hstep s e' (List.mem_cons_of_mem e he')) x h

namespace SSHCommandManager

/-- Every active-map entry under the given id is unclassified (not blocked). -/
def NotBlockedAt (sid : String) (rs : RunState) : Prop :=
  ∀ p ∈ rs.mgr.sessions, p.1 = sid → p.2.isBlocked = false

theorem notBlockedAt_not_listed (sid : String) (rs : RunState)
    (h : NotBlockedAt sid rs) (now : Nat) :
    ∀ info ∈ listActiveSessions now rs.mgr, info.id ≠ sid := by
  intro info hinfo
  simp only [listActiveSessions, List.mem_map, List.mem_filter] at hinfo
  obtain ⟨p, ⟨hpm, hpf⟩, hpi⟩ := hinfo
  intro hid
  have hpid : p.1 = sid := by rw [← hpi] at hid; exact hid
  have := h p hpm hpid
  simp [this] at hpf

theorem store_sessions_mem (t : Nat) (k : String) (st : CommandManagerState)
    (p : String × SSHCommandSession)
    (h : p ∈ (storeCompletedSession t k st).sessions) : p ∈ st.sessions := by
  unfold storeCompletedSession at h
  cases hg : listGet st.sessions k with
  | none => rw [hg] at h; exact h
  | some s =>
    rw [hg] at h
    exact mem_listDelete _ _ _ h

theorem step_preserves_notBlockedAt (sid : String) (rs : RunState) (e : CmdEvent)
    (hsid : rs.sid = sid) (hne : e ≠ CmdEvent.timerFire)
    (h : NotBlockedAt sid rs) : NotBlockedAt sid (execEventStep rs e) := by
  have hblocked : ∀ s, listGet rs.mgr.sessions rs.sid = some s →
      s.isBlocked = false := by
    intro s hs
    exact h (rs.sid, s) (listGet_mem _ _ _ hs) hsid
  have hset : ∀ (s1 : SSHCommandSession), ∀ p ∈ listSet rs.mgr.sessions rs.sid s1,
      p.1 = sid → s1.isBlocked = false → p.2.isBlocked = false := by
    intro s1 p hp hpid hs1
    rcases mem_listSet _ _ _ _ hp with h' | h'
    · exact h p h' hpid
    · rw [h']; exact hs1
  cases e with
  | timerFire => exact absurd rfl hne
  | chunkOut text =>
    simp only [execEventStep, execChunkOutStep]
    cases hg : listGet rs.mgr.sessions rs.sid with
    | none => exact h
    | some s =>
      dsimp only
      intro p hp hpid
      have hp2 : p ∈ listSet rs.mgr.sessions rs.sid
          { s with stdout := s.stdout ++ text, lastOutput := s.lastOutput ++ text } := hp
      exact hset _ p hp2 hpid (hblocked s hg)
  | chunkErr text =>
    simp only [execEventStep, execChunkErrStep]
    cases hg : listGet rs.mgr.sessions rs.sid with
    | none => exact h
    | some s =>
      dsimp only
      intro p hp hpid
      have hp2 : p ∈ listSet rs.mgr.sessions rs.sid
          { s with stderr := s.stderr ++ text, lastOutput := s.lastOutput ++ text } := hp
      exact hset _ p hp2 hpid (hblocked s hg)
  | completed t res =>
    simp only [execEventStep, execCompleteStep]
    cases hg : listGet rs.mgr.sessions rs.sid with
    | none => exact h
    | some s =>
      have hbf : s.isBlocked = false := hblocked s hg
      dsimp only
      rw [hbf]
      simp only [Bool.false_eq_true, if_false]
      intro p hp hpid
      have hp' := store_sessions_mem _ _ _ _ hp
      exact hset _ p hp' hpid rfl
  | failed t msg =>
    simp only [execEventStep, execErrorStep]
    cases hg : listGet rs.mgr.sessions rs.sid with
    | none => exact h
    | some s =>
      have hbf : s.isBlocked = false := hblocked s hg
      dsimp only
      rw [hbf]
      simp only [Bool.false_eq_true, if_false]
      intro p hp hpid
      have hp' := store_sessions_mem _ _ _ _ hp
      exact hset _ p hp' hpid rfl

end SSHCommandManager

theorem listSet_append_self {α : Type} (m : List (String × α)) (k : String)
    (v w : α) (h : listGet m k = none) :
    listSet (m ++ [(k, v)]) k w = m ++ [(k, w)] := by
  induction m with
  | nil => simp [listSet]
  | cons p rest ih =>
    by_cases hp : p.1 == k
    · simp [listGet, hp] at h
    · simp only [listGet, hp, Bool.false_eq_true, if_false] at h
      simp [listSet, hp, ih h]

theorem listGet_append_self {α : Type} (m : List (String × α)) (k : String)
    (v : α) (h : listGet m k = none) : listGet (m ++ [(k, v)]) k = some v := by
  induction m with
  | nil => simp [listGet]
  | cons p rest ih =>
    by_cases hp : p.1 == k
    · simp [listGet, hp] at h
    · simp only [listGet, hp, Bool.false_eq_true, if_false] at h
      simp [listGet, hp, ih h]

namespace SSHCommandManager

theorem execEventStep_sid (rs : RunState) (e : CmdEvent) :
    (execEventStep rs e).sid = rs.sid := by
  cases e with
  | chunkOut text =>
    simp only [execEventStep, execChunkOutStep]
    cases listGet rs.mgr.sessions rs.sid <;> rfl
  | chunkErr text =>
    simp only [execEventStep, execChunkErrStep]
    cases listGet rs.mgr.sessions rs.sid <;> rfl
  | timerFire =>
    simp only [execEventStep, execTimerStep]
    cases listGet rs.mgr.sessions rs.sid with
    | none => rfl
    | some s => dsimp only; split <;> rfl
  | completed t res =>
    simp only [execEventStep, execCompleteStep]
    cases listGet rs.mgr.sessions rs.sid with
    | none => rfl
    | some s => dsimp only; split <;> rfl
  | failed t msg =>
    simp only [execEventStep, execErrorStep]
    cases listGet rs.mgr.sessions rs.sid with
    | none => rfl
    | some s => dsimp only; split <;> rfl

theorem OutChunk.event_ne_timer (c : OutChunk) : c.event ≠ CmdEvent.timerFire := by
  cases c <;> simp [OutChunk.event]

end SSHCommandManager

open SSHCommandManager in
/-- C4: a command whose execution completes before the internal timeout
resolves with the Fast classification (`isBlocked = false`), the exact exit
code the connection reported, and the concatenation of all output the
connection produced (given that the final result fields repeat exactly what
the callbacks already delivered, the defensive merge adds nothing); the
session is gone from the active map afterwards, and at no intermediate state
of the run does the command's id appear in a `listActiveSessions` result. -/
theorem executeCommand_fast_exact (startT t : Nat) (st : CommandManagerState)
    (cs : List OutChunk) (res : ExecResultJS)
    (hout : res.stdout = concatOuts cs) (herr : res.stderr = concatErrs cs)
    (hfresh : listGet st.sessions (mkCmdId startT (st.sessionCounter + 1)) = none) :
    (executeCommand startT st (Schedule.fast cs (RacerEnd.success t res))).resolutions =
      [{ id := mkCmdId startT (st.sessionCounter + 1),
         output := concatOuts cs ++ concatErrs cs,
         isBlocked := false, exitCode := res.code }] ∧
    listGet (executeCommand startT st
        (Schedule.fast cs (RacerEnd.success t res))).mgr.sessions
      (mkCmdId startT (st.sessionCounter + 1)) = none ∧
    (∀ rs ∈ runStates startT st (Schedule.fast cs (RacerEnd.success t res)),
      ∀ now : Nat, ∀ info ∈ listActiveSessions now rs.mgr,
        info.id ≠ mkCmdId startT (st.sessionCounter + 1)) := by
  refine ⟨?_, ?_, ?_⟩
  · unfold executeCommand Schedule.events
    rw [List.foldl_append, chunksFold cs _ _ (initRun_get startT st)]
    simp [execEventStep, execCompleteStep, RacerEnd.event, listGet_set_self,
      initRun, registerSession, initSession, hout, herr, jsIncludes_self,
      String.empty_append, String.append_empty, listSet_set]
  · unfold executeCommand Schedule.events
    rw [List.foldl_append, chunksFold cs _ _ (initRun_get startT st)]
    simp [execEventStep, execCompleteStep, RacerEnd.event, listGet_set_self,
      initRun, registerSession, initSession, hout, herr, jsIncludes_self,
      String.empty_append, String.append_empty, listSet_set,
      storeCompletedSession, listSet_of_none, hfresh, listDelete_append_self,
      listSet_append_self, listGet_append_self]
  · intro rs hrs now info hinfo
    unfold runStates at hrs
    have hinit : NotBlockedAt (mkCmdId startT (st.sessionCounter + 1))
        (initRun startT st) ∧
        (initRun startT st).sid = mkCmdId startT (st.sessionCounter + 1) := by
      constructor
      · intro p hp hpid
        have hp2 : p ∈ listSet st.sessions (mkCmdId startT (st.sessionCounter + 1))
            (initSession (mkCmdId startT (st.sessionCounter + 1)) startT) := hp
        rcases mem_listSet _ _ _ _ hp2 with h' | h'
        · exact absurd hpid ((listGet_eq_none_iff _ _).mp hfresh p h')
        · rw [h']; rfl
      · rfl
    have hstep : ∀ x e, e ∈ (Schedule.fast cs (RacerEnd.success t res)).events →
        (NotBlockedAt (mkCmdId startT (st.sessionCounter + 1)) x ∧
          x.sid = mkCmdId startT (st.sessionCounter + 1)) →
        (NotBlockedAt (mkCmdId startT (st.sessionCounter + 1)) (execEventStep x e) ∧
          (execEventStep x e).sid = mkCmdId startT (st.sessionCounter + 1)) := by
      intro x e he hx
      have hne : e ≠ CmdEvent.timerFire := by
        simp only [Schedule.events, List.mem_append, List.mem_map,
          List.mem_singleton] at he
        rcases he with ⟨c, _, hc⟩ | he
        · rw [← hc]; exact OutChunk.event_ne_timer c
        · rw [he]; simp [RacerEnd.event]
      exact ⟨step_preserves_notBlockedAt _ x e hx.2 hne hx.1,
        by rw [execEventStep_sid]; exact hx.2⟩
    have hP := scanl_all _ execEventStep _ _ hinit hstep rs hrs
    exact notBlockedAt_not_listed _ rs hP.1 now info hinfo

open SSHCommandManager in
/-- Witness for `executeCommand_fast_exact` at a concrete two-chunk fast run. -/
theorem executeCommand_fast_exact_witness :
    wRes.stdout = concatOuts wChunks ∧
    wRes.stderr = concatErrs wChunks ∧
    listGet emptyCmdState.sessions (mkCmdId 0 (emptyCmdState.sessionCounter + 1)) = none ∧
    ((executeCommand 0 emptyCmdState
        (Schedule.fast wChunks (RacerEnd.success 1 wRes))).resolutions =
      [{ id := mkCmdId 0 (emptyCmdState.sessionCounter + 1),
         output := concatOuts wChunks ++ concatErrs wChunks,
         isBlocked := false, exitCode := wRes.code }] ∧
     listGet (executeCommand 0 emptyCmdState
         (Schedule.fast wChunks (RacerEnd.success 1 wRes))).mgr.sessions
       (mkCmdId 0 (emptyCmdState.sessionCounter + 1)) = none ∧
     (∀ rs ∈ runStates 0 emptyCmdState (Schedule.fast wChunks (RacerEnd.success 1 wRes)),
       ∀ now : Nat, ∀ info ∈ listActiveSessions now rs.mgr,
         info.id ≠ mkCmdId 0 (emptyCmdState.sessionCounter + 1))) :=
  ⟨by decide, by decide, by decide,
   executeCommand_fast_exact 0 1 emptyCmdState wChunks wRes
     (by decide) (by decide) (by decide)⟩

open SSHSessionManager in
/-- C2: evaluated at the failing input.  The first half of the claim holds:
once the idle timer of a session created at t=0 with a configured 1000 ms
idle window has fired, `run`, `upload` and `download` on that id all fail
with the wrapped "SSH session not found" error.  The second half fails on
the code: a `run` at t=500 (before expiry) reschedules eviction for
t=500+1800000 — `resetIdleTimeout` always reschedules with the 30-minute
`DEFAULT_IDLE_TIMEOUT` — instead of t=1500, the postponement by the full
configured idle window that the claim requires. -/
theorem idle_reset_uses_default_not_configured :
    (createSession 0 42 wConfig (some 1000) (Except.ok ()) emptySessState).1 =
      Except.ok "u@h:22-0-42" ∧
    listGet (createSession 0 42 wConfig (some 1000) (Except.ok ())
        emptySessState).2.sessionTimeouts "u@h:22-0-42" = some 1000 ∧
    (executeCommandS 2000 "u@h:22-0-42" (Except.ok wRes)
        (fireIdleTimer "u@h:22-0-42"
          (createSession 0 42 wConfig (some 1000) (Except.ok ())
            emptySessState).2)).1 =
      Except.error
        "Failed to execute command in SSH session: SSH session not found: u@h:22-0-42" ∧
    (uploadFile 2000 "u@h:22-0-42" (Except.ok ())
        (fireIdleTimer "u@h:22-0-42"
          (createSession 0 42 wConfig (some 1000) (Except.ok ())
            emptySessState).2)).1 =
      Except.error
        "Failed to upload file in SSH session: SSH session not found: u@h:22-0-42" ∧
    (downloadFile 2000 "u@h:22-0-42" (Except.ok ())
        (fireIdleTimer "u@h:22-0-42"
          (createSession 0 42 wConfig (some 1000) (Except.ok ())
            emptySessState).2)).1 =
      Except.error
        "Failed to download file in SSH session: SSH session not found: u@h:22-0-42" ∧
    listGet (executeCommandS 500 "u@h:22-0-42" (Except.ok wRes)
        (createSession 0 42 wConfig (some 1000) (Except.ok ())
          emptySessState).2).2.sessionTimeouts "u@h:22-0-42" = some 1800500 ∧
    (500 + 1000 : Nat) ≠ 1800500 :=
  ⟨by decide, by decide, by decide, by decide, by decide, by decide, by decide⟩

theorem toDigitsCore_eq_digits (f : Nat) : ∀ (n : Nat) (acc : List Char),
    n ≠ 0 → n < f →
    Nat.toDigitsCore 10 f n acc =
      ((Nat.digits 10 n).map Nat.digitChar).reverse ++ acc := by
  induction f with
  | zero => intro n acc h0 hf; omega
  | succ f ih =>
    intro n acc h0 hf
    by_cases hd : n / 10 = 0
    · have hn10 : n < 10 := by omega
      rw [Nat.toDigitsCore]
      simp only [hd, if_pos]
      rw [Nat.digits_def' (by norm_num : (1:ℕ) < 10) (Nat.pos_of_ne_zero h0), hd]
      simp [Nat.mod_eq_of_lt hn10]
    · have hpos : 0 < n := Nat.pos_of_ne_zero h0
      have hlt : n / 10 < f := by
        have h1 : n / 10 < n := Nat.div_lt_self hpos (by norm_num)
        omega
      rw [Nat.toDigitsCore]
      simp only [hd, if_neg, if_false]
      rw [ih (n / 10) _ hd hlt]
      rw [Nat.digits_def' (by norm_num : (1:ℕ) < 10) hpos]
      simp [List.append_assoc]

theorem repr_data_of_ne_zero (n : Nat) (h : n ≠ 0) :
    (Nat.repr n).data = ((Nat.digits 10 n).map Nat.digitChar).reverse := by
  show (Nat.toDigits 10 n).asString.data = _
  rw [Nat.toDigits, toDigitsCore_eq_digits (n + 1) n [] h (by omega)]
  simp [List.asString]

theorem repr_chars_digitChar (n : Nat) :
    ∀ c ∈ (Nat.repr n).data, ∃ d, d < 10 ∧ c = Nat.digitChar d := by
  by_cases h : n = 0
  · subst h
    intro c hc
    have h0 : (Nat.repr 0).data = ['0'] := rfl
    rw [h0] at hc
    simp only [List.mem_singleton] at hc
    exact ⟨0, by norm_num, by rw [hc]; rfl⟩
  · rw [repr_data_of_ne_zero n h]
    intro c hc
    simp only [List.mem_reverse, List.mem_map] at hc
    obtain ⟨d, hd, hc⟩ := hc
    exact ⟨d, Nat.digits_lt_base (by norm_num) hd, hc.symm⟩

theorem repr_no_dash (n : Nat) : ∀ c ∈ (Nat.repr n).data, c ≠ '-' := by
  intro c hc
  obtain ⟨d, hd, hc⟩ := repr_chars_digitChar n c hc
  subst hc
  have hall : ∀ d : Nat, d < 10 → Nat.digitChar d ≠ '-' := by decide
  exact hall d hd

theorem digitChar_inj_lt (a b : Nat) (ha : a < 10) (hb : b < 10)
    (h : Nat.digitChar a = Nat.digitChar b) : a = b := by
  have hall : ∀ a : Nat, a < 10 → ∀ b : Nat, b < 10 →
      Nat.digitChar a = Nat.digitChar b → a = b := by decide
  exact hall a ha b hb h

theorem map_digitChar_inj : ∀ (l1 l2 : List Nat), (∀ d ∈ l1, d < 10) →
    (∀ d ∈ l2, d < 10) → l1.map Nat.digitChar = l2.map Nat.digitChar → l1 = l2 := by
  intro l1
  induction l1 with
  | nil => intro l2 _ _ h; cases l2 with
    | nil => rfl
    | cons b bs => simp at h
  | cons a as ih =>
    intro l2 h1 h2 h
    cases l2 with
    | nil => simp at h
    | cons b bs =>
      simp only [List.map_cons, List.cons.injEq] at h
      have hab : a = b :=
        digitChar_inj_lt a b (h1 a (List.mem_cons_self a as))
          (h2 b (List.mem_cons_self b bs)) h.1
      have htl : as = bs := ih bs (fun d hd => h1 d (List.mem_cons_of_mem a hd))
        (fun d hd => h2 d (List.mem_cons_of_mem b hd)) h.2
      rw [hab, htl]

theorem repr_inj (m n : Nat) (h : Nat.repr m = Nat.repr n) : m = n := by
  have hdata : (Nat.repr m).data = (Nat.repr n).data := congrArg String.data h
  by_cases hm : m = 0 <;> by_cases hn : n = 0
  · rw [hm, hn]
  · exfalso
    rw [hm, repr_data_of_ne_zero n hn] at hdata
    have h0 : (['0'] : List Char) = ((Nat.digits 10 n).map Nat.digitChar).reverse :=
      hdata
    have hmap : (Nat.digits 10 n).map Nat.digitChar = ['0'] := by
      have := congrArg List.reverse h0
      simpa using this.symm
    have hdig : Nat.digits 10 n = [0] := by
      apply map_digitChar_inj _ _ (fun d hd => Nat.digits_lt_base (by norm_num) hd)
        (by intro d hd; simp at hd; omega)
      simpa using hmap
    have hof := Nat.ofDigits_digits 10 n
    rw [hdig] at hof
    simp [Nat.ofDigits] at hof
    exact hn hof.symm
  · exfalso
    rw [hn, repr_data_of_ne_zero m hm] at hdata
    have hmap : (Nat.digits 10 m).map Nat.digitChar = ['0'] := by
      have := congrArg List.reverse hdata
      simpa using this
    have hdig : Nat.digits 10 m = [0] := by
      apply map_digitChar_inj _ _ (fun d hd => Nat.digits_lt_base (by norm_num) hd)
        (by intro d hd; simp at hd; omega)
      simpa using hmap
    have hof := Nat.ofDigits_digits 10 m
    rw [hdig] at hof
    simp [Nat.ofDigits] at hof
    exact hm hof.symm
  · rw [repr_data_of_ne_zero m hm, repr_data_of_ne_zero n hn] at hdata
    have hmap : (Nat.digits 10 m).map Nat.digitChar =
        (Nat.digits 10 n).map Nat.digitChar := by
      have := congrArg List.reverse hdata
      simpa using this
    have hdig : Nat.digits 10 m = Nat.digits 10 n :=
      map_digitChar_inj _ _ (fun d hd => Nat.digits_lt_base (by norm_num) hd)
        (fun d hd => Nat.digits_lt_base (by norm_num) hd) hmap
    have h1 := Nat.ofDigits_digits 10 m
    have h2 := Nat.ofDigits_digits 10 n
    rw [hdig] at h1
    rw [h2] at h1
    exact h1.symm

theorem append_dash_split : ∀ (a : List Char) (c b d : List Char),
    (∀ x ∈ a, x ≠ '-') → (∀ x ∈ c, x ≠ '-') →
    a ++ '-' :: b = c ++ '-' :: d → a = c ∧ b = d := by
  intro a
  induction a with
  | nil =>
    intro c b d _ hc h
    cases c with
    | nil => simp only [List.nil_append, List.cons.injEq] at h; exact ⟨rfl, h.2⟩
    | cons y c' =>
      simp only [List.nil_append, List.cons_append, List.cons.injEq] at h
      exact absurd h.1.symm (hc y (List.mem_cons_self y c'))
  | cons x a' ih =>
    intro c b d ha hc h
    cases c with
    | nil =>
      simp only [List.nil_append, List.cons_append, List.cons.injEq] at h
      exact absurd h.1 (ha x (List.mem_cons_self x a'))
    | cons y c' =>
      simp only [List.cons_append, List.cons.injEq] at h
      obtain ⟨hxy, h2⟩ := h
      obtain ⟨h3, h4⟩ := ih c' b d (fun z hz => ha z (List.mem_cons_of_mem x hz))
        (fun z hz => hc z (List.mem_cons_of_mem y hz)) h2
      exact ⟨by rw [hxy, h3], h4⟩

theorem string_data_inj (s t : String) (h : s.data = t.data) : s = t := by
  cases s
  cases t
  exact congrArg String.mk h

theorem mkCmdId_inj (t1 c1 t2 c2 : Nat)
    (h : SSHCommandManager.mkCmdId t1 c1 = SSHCommandManager.mkCmdId t2 c2) :
    t1 = t2 ∧ c1 = c2 := by
  have hdata := congrArg String.data h
  simp only [SSHCommandManager.mkCmdId, String.data_append, List.append_assoc]
    at hdata
  have hsplit := List.append_cancel_left hdata
  simp only [List.singleton_append] at hsplit
  obtain ⟨ht, hc⟩ := append_dash_split _ _ _ _ (repr_no_dash t1) (repr_no_dash t2)
    hsplit
  exact ⟨repr_inj t1 t2 (string_data_inj _ _ ht),
    repr_inj c1 c2 (string_data_inj _ _ hc)⟩

open SSHCommandManager in
/-- C10: under the invariant that every existing key embeds a counter value
at most the current `sessionCounter`, the next `executeCommand` call
strictly increases the counter, its freshly generated id collides with no
key of the active map or the ledger, registration appends a new entry
instead of overwriting one, and the invariant is maintained at the larger
counter. -/
theorem generated_ids_never_collide (startT : Nat) (st : CommandManagerState)
    (hdom : CounterDominates st) :
    (registerSession startT st).2.sessionCounter = st.sessionCounter + 1 ∧
    listGet st.sessions (mkCmdId startT (st.sessionCounter + 1)) = none ∧
    listGet st.completedSessions (mkCmdId startT (st.sessionCounter + 1)) = none ∧
    (registerSession startT st).2.sessions =
      st.sessions ++ [(mkCmdId startT (st.sessionCounter + 1),
        initSession (mkCmdId startT (st.sessionCounter + 1)) startT)] ∧
    CounterDominates (registerSession startT st).2 := by
  have hnotin : ¬ inEither st (mkCmdId startT (st.sessionCounter + 1)) := by
    intro hmem
    obtain ⟨t, c, hc, hk⟩ := hdom _ hmem
    obtain ⟨-, hcc⟩ := mkCmdId_inj _ _ _ _ hk.symm
    omega
  have hs : listGet st.sessions (mkCmdId startT (st.sessionCounter + 1)) = none := by
    cases hg : listGet st.sessions (mkCmdId startT (st.sessionCounter + 1)) with
    | none => rfl
    | some v => exact absurd (Or.inl (by simp [hg])) hnotin
  have hcp : listGet st.completedSessions
      (mkCmdId startT (st.sessionCounter + 1)) = none := by
    cases hg : listGet st.completedSessions
        (mkCmdId startT (st.sessionCounter + 1)) with
    | none => rfl
    | some v => exact absurd (Or.inr (by simp [hg])) hnotin
  refine ⟨rfl, hs, hcp, ?_, ?_⟩
  · show listSet st.sessions _ _ = _
    exact listSet_of_none _ _ _ hs
  · intro k hk
    rcases hk with hk | hk
    · have hk2 : (listGet (listSet st.sessions
          (mkCmdId startT (st.sessionCounter + 1))
          (initSession (mkCmdId startT (st.sessionCounter + 1)) startT)) k).isSome :=
        hk
      rw [listSet_of_none _ _ _ hs] at hk2
      rw [listGet_isSome_iff_mem_keys] at hk2
      simp only [listKeys, List.map_append, List.mem_append, List.map_cons,
        List.map_nil, List.mem_singleton] at hk2
      rcases hk2 with hk2 | hk2
      · obtain ⟨t, c, hc, hkeq⟩ := hdom k
          (Or.inl ((listGet_isSome_iff_mem_keys _ _).mpr hk2))
        exact ⟨t, c, by simp [registerSession]; omega, hkeq⟩
      · exact ⟨startT, st.sessionCounter + 1, by simp [registerSession], hk2⟩
    · have hk2 : (listGet st.completedSessions k).isSome := hk
      obtain ⟨t, c, hc, hkeq⟩ := hdom k (Or.inr hk2)
      exact ⟨t, c, by simp [registerSession]; omega, hkeq⟩

open SSHCommandManager in
/-- Witness for `generated_ids_never_collide` on the empty manager state. -/
theorem generated_ids_never_collide_witness :
    CounterDominates emptyCmdState ∧
    ((registerSession 0 emptyCmdState).2.sessionCounter =
        emptyCmdState.sessionCounter + 1 ∧
     listGet emptyCmdState.sessions (mkCmdId 0 (emptyCmdState.sessionCounter + 1)) =
       none ∧
     listGet emptyCmdState.completedSessions
       (mkCmdId 0 (emptyCmdState.sessionCounter + 1)) = none ∧
     (registerSession 0 emptyCmdState).2.sessions =
       emptyCmdState.sessions ++ [(mkCmdId 0 (emptyCmdState.sessionCounter + 1),
         initSession (mkCmdId 0 (emptyCmdState.sessionCounter + 1)) 0)] ∧
     CounterDominates (registerSession 0 emptyCmdState).2) :=
  have hdom : CounterDominates emptyCmdState := by
    intro k hk
    rcases hk with hk | hk <;> simp [emptyCmdState, listGet] at hk
  ⟨hdom, generated_ids_never_collide 0 emptyCmdState hdom⟩

theorem listKeys_set_of_some {α : Type} (m : List (String × α)) (k : String)
    (v : α) (h : (listGet m k).isSome) : listKeys (listSet m k v) = listKeys m := by
  induction m with
  | nil => simp [listGet] at h
  | cons p rest ih =>
    by_cases hp : p.1 == k
    · have hpk : p.1 = k := by simpa [beq_iff_eq] using hp
      simp [listSet, listKeys, hp, hpk]
    · simp only [listGet, hp, Bool.false_eq_true, if_false] at h
      simp [listSet, listKeys, hp]
      exact congrArg (fun l => l) (by simpa [listKeys] using ih h)

theorem listDelete_sublist {α : Type} (m : List (String × α)) (k : String) :
    List.Sublist (listDelete m k) m := by
  induction m with
  | nil => simp [listDelete]
  | cons p rest ih =>
    by_cases hp : p.1 == k
    · simp only [listDelete, hp, if_pos]
      exact List.sublist_cons_of_sublist p (List.Sublist.refl rest)
    · simp only [listDelete, hp, Bool.false_eq_true, if_false]
      exact List.Sublist.cons₂ p ih

theorem listGet_append_left {α : Type} (m m' : List (String × α)) (k : String)
    (v : α) (h : listGet m k = some v) : listGet (m ++ m') k = some v := by
  induction m with
  | nil => simp [listGet] at h
  | cons p rest ih =>
    by_cases hp : p.1 == k
    · simp only [listGet, hp, if_pos, Option.some.injEq] at h
      simp [listGet, hp, h]
    · simp only [listGet, hp, Bool.false_eq_true, if_false] at h
      simp [listGet, hp, ih h]

namespace SSHCommandManager

theorem store_effect (now : Nat) (sid : String) (st : CommandManagerState)
    (s : SSHCommandSession) (hg : listGet st.sessions sid = some s)
    (hcomp : listGet st.completedSessions sid = none) :
    (storeCompletedSession now sid st =
      { st with sessions := listDelete st.sessions sid,
                completedSessions :=
                  st.completedSessions ++ [(sid, completedOf now sid s)] } ∧
      st.completedSessions.length + 1 ≤ 100) ∨
    (∃ p rest, st.completedSessions = p :: rest ∧
      100 ≤ st.completedSessions.length ∧
      storeCompletedSession now sid st =
        { st with sessions := listDelete st.sessions sid,
                  completedSessions := rest ++ [(sid, completedOf now sid s)] }) := by
  unfold storeCompletedSession
  rw [hg]
  dsimp only
  rw [listSet_of_none _ _ _ hcomp]
  simp only [List.length_append, List.length_cons, List.length_nil, Nat.zero_add]
  by_cases hlen : 100 < st.completedSessions.length + 1
  · right
    have hne : st.completedSessions ≠ [] := by
      intro hnil
      rw [hnil] at hlen
      simp at hlen
    obtain ⟨p, rest, hpr⟩ : ∃ p rest, st.completedSessions = p :: rest := by
      cases hc : st.completedSessions with
      | nil => exact absurd hc hne
      | cons p rest => exact ⟨p, rest, rfl⟩
    refine ⟨p, rest, hpr, by omega, ?_⟩
    rw [if_pos hlen, hpr]
    simp only [List.cons_append, List.head?_cons]
    rw [listDelete_cons_self]
  · left
    rw [if_neg hlen]
    exact ⟨rfl, by omega⟩

end SSHCommandManager

theorem listGet_append {α : Type} (m m' : List (String × α)) (k : String) :
    listGet (m ++ m') k =
      match listGet m k with
      | some v => some v
      | none => listGet m' k := by
  induction m with
  | nil => simp [listGet]
  | cons p rest ih =>
    by_cases hp : p.1 == k
    · simp [listGet, hp]
    · simp [listGet, hp, ih]

theorem listGet_singleton_self {α : Type} (k : String) (v : α) :
    listGet [(k, v)] k = some v := by
  simp [listGet]

theorem listGet_singleton_ne {α : Type} (k0 k : String) (v : α) (h : k ≠ k0) :
    listGet [(k0, v)] k = none := by
  simp [listGet, beq_iff_eq]
  intro he
  exact absurd he.symm h

namespace SSHCommandManager

theorem store_preserves (now : Nat) (sid : String) (st : CommandManagerState)
    (hinv : MgrInv st) :
    MgrInv (storeCompletedSession now sid st) ∧
    (∀ k, inEither st k →
      inEither (storeCompletedSession now sid st) k ∨
        (st.completedSessions.head?.map Prod.fst = some k ∧
          100 ≤ st.completedSessions.length)) ∧
    ((listGet st.sessions sid).isSome →
      inEither (storeCompletedSession now sid st) sid) := by
  obtain ⟨⟨hnds, hndc⟩, hone, hdom⟩ := hinv
  cases hg : listGet st.sessions sid with
  | none =>
    have heq : storeCompletedSession now sid st = st := by
      unfold storeCompletedSession
      rw [hg]
    rw [heq]
    exact ⟨⟨⟨hnds, hndc⟩, hone, hdom⟩, fun k hk => Or.inl hk,
      by intro h; simp at h⟩
  | some s =>
    have hcomp : listGet st.completedSessions sid = none := by
      cases hgc : listGet st.completedSessions sid with
      | none => rfl
      | some c => exact absurd ⟨by simp [hg], by simp [hgc]⟩ (hone sid)
    have hsidout : ∀ p ∈ st.completedSessions, p.1 ≠ sid :=
      (listGet_eq_none_iff _ _).mp hcomp
    have hdelnodup : (listKeys (listDelete st.sessions sid)).Nodup :=
      ((listDelete_sublist st.sessions sid).map Prod.fst).nodup hnds
    have hdelself : listGet (listDelete st.sessions sid) sid = none :=
      listGet_delete_self st.sessions sid hnds
    rcases store_effect now sid st s hg hcomp with ⟨heq, hle⟩ |
      ⟨p, rest, hpr, hge, heq⟩
    · rw [heq]
      refine ⟨⟨⟨hdelnodup, ?_⟩, ?_, ?_⟩, ?_, ?_⟩
      · simp only [listKeys, List.map_append, List.map_cons, List.map_nil]
        rw [List.nodup_append]
        refine ⟨hndc, List.nodup_singleton sid, ?_⟩
        intro a ha hb
        simp only [List.mem_singleton] at hb
        subst hb
        simp only [listKeys, List.mem_map] at ha
        obtain ⟨q, hq, hqk⟩ := ha
        exact hsidout q hq hqk
      · intro k hk
        obtain ⟨hk1, hk2⟩ := hk
        by_cases hks : k = sid
        · subst hks
          rw [hdelself] at hk1
          simp at hk1
        · rw [listGet_delete_ne _ _ _ hks] at hk1
          rw [listGet_append] at hk2
          cases hgk : listGet st.completedSessions k with
          | some v => exact hone k ⟨hk1, by simp [hgk]⟩
          | none =>
            rw [hgk, listGet_singleton_ne sid k _ hks] at hk2
            simp at hk2
      · intro k hk
        rcases hk with hk | hk
        · by_cases hks : k = sid
          · subst hks; rw [hdelself] at hk; simp at hk
          · rw [listGet_delete_ne _ _ _ hks] at hk
            exact hdom k (Or.inl hk)
        · rw [listGet_append] at hk
          cases hgk : listGet st.completedSessions k with
          | some v => exact hdom k (Or.inr (by simp [hgk]))
          | none =>
            rw [hgk] at hk
            by_cases hks : k = sid
            · subst hks; exact hdom k (Or.inl (by simp [hg]))
            · rw [listGet_singleton_ne sid k _ hks] at hk
              simp at hk
      · intro k hk
        by_cases hks : k = sid
        · subst hks
          left
          right
          rw [listGet_append, hcomp, listGet_singleton_self]
          rfl
        · left
          rcases hk with hk | hk
          · left
            rw [listGet_delete_ne _ _ _ hks]
            exact hk
          · right
            rw [listGet_append]
            cases hgk : listGet st.completedSessions k with
            | some v => simp
            | none => rw [hgk] at hk; simp at hk
      · intro _
        right
        rw [listGet_append, hcomp, listGet_singleton_self]
        rfl
    · rw [heq]
      have hrestout : ∀ q ∈ rest, q.1 ≠ sid := by
        intro q hq
        exact hsidout q (by rw [hpr]; exact List.mem_cons_of_mem p hq) 
      have hrestnone : listGet rest sid = none :=
        (listGet_eq_none_iff _ _).mpr hrestout
      have hndrest : (listKeys rest).Nodup := by
        rw [hpr] at hndc
        simp only [listKeys, List.map_cons, List.nodup_cons] at hndc
        exact hndc.2
      have hrest_to_comp : ∀ k v, listGet rest k = some v →
          (listGet st.completedSessions k).isSome := by
        intro k v hkv
        rw [listGet_isSome_iff_mem_keys, hpr]
        simp only [listKeys, List.map_cons, List.mem_cons]
        right
        have : (listGet rest k).isSome := by simp [hkv]
        rw [listGet_isSome_iff_mem_keys] at this
        exact this
      refine ⟨⟨⟨hdelnodup, ?_⟩, ?_, ?_⟩, ?_, ?_⟩
      · simp only [listKeys, List.map_append, List.map_cons, List.map_nil]
        rw [List.nodup_append]
        refine ⟨hndrest, List.nodup_singleton sid, ?_⟩
        intro a ha hb
        simp only [List.mem_singleton] at hb
        subst hb
        simp only [listKeys, List.mem_map] at ha
        obtain ⟨q, hq, hqk⟩ := ha
        exact hrestout q hq hqk
      · intro k hk
        obtain ⟨hk1, hk2⟩ := hk
        by_cases hks : k = sid
        · subst hks
          rw [hdelself] at hk1
          simp at hk1
        · rw [listGet_delete_ne _ _ _ hks] at hk1
          rw [listGet_append] at hk2
          cases hgk : listGet rest k with
          | some v => exact hone k ⟨hk1, hrest_to_comp k v hgk⟩
          | none =>
            rw [hgk, listGet_singleton_ne sid k _ hks] at hk2
            simp at hk2
      · intro k hk
        rcases hk with hk | hk
        · by_cases hks : k = sid
          · subst hks; rw [hdelself] at hk; simp at hk
          · rw [listGet_delete_ne _ _ _ hks] at hk
            exact hdom k (Or.inl hk)
        · rw [listGet_append] at hk
          cases hgk : listGet rest k with
          | some v => exact hdom k (Or.inr (hrest_to_comp k v hgk))
          | none =>
            rw [hgk] at hk
            by_cases hks : k = sid
            · subst hks; exact hdom k (Or.inl (by simp [hg]))
            · rw [listGet_singleton_ne sid k _ hks] at hk
              simp at hk
      · intro k hk
        by_cases hks : k = sid
        · subst hks
          left
          right
          rw [listGet_append, hrestnone, listGet_singleton_self]
          rfl
        · rcases hk with hk | hk
          · left
            left
            rw [listGet_delete_ne _ _ _ hks]
            exact hk
          · by_cases hkp : k = p.1
            · right
              refine ⟨?_, hge⟩
              rw [hpr, hkp]
              rfl
            · left
              right
              rw [listGet_append]
              have hck : listGet st.completedSessions k = listGet rest k := by
                rw [hpr]
                show listGet (p :: rest) k = listGet rest k
                have : (p.1 == k) = false := by
                  simpa [beq_iff_eq] using fun he => hkp he.symm
                simp [listGet, this]
              rw [← hck]
              cases hgk : listGet st.completedSessions k with
              | some v => simp
              | none => rw [hgk] at hk; simp at hk
      · intro _
        right
        rw [listGet_append, hrestnone, listGet_singleton_self]
        rfl

end SSHCommandManager

theorem cmdState_ext (a b : CommandManagerState) (h1 : a.sessions = b.sessions)
    (h2 : a.completedSessions = b.completedSessions)
    (h3 : a.sessionCounter = b.sessionCounter) : a = b := by
  cases a
  cases b
  simp only at h1 h2 h3
  rw [h1, h2, h3]

namespace SSHCommandManager

theorem runShape_init (startT : Nat) (st : CommandManagerState) :
    RunShape st (mkCmdId startT (st.sessionCounter + 1)) (initRun startT st) :=
  ⟨rfl, rfl, rfl, initSession (mkCmdId startT (st.sessionCounter + 1)) startT, rfl⟩

theorem runShape_chunk (st0 : CommandManagerState) (sid : String) (rs : RunState)
    (c : OutChunk) (h : RunShape st0 sid rs) :
    RunShape st0 sid (execEventStep rs c.event) := by
  obtain ⟨hsid, hcomp, hcnt, sv, hsess⟩ := h
  cases c with
  | out text =>
    simp only [OutChunk.event, execEventStep, execChunkOutStep]
    cases hg : listGet rs.mgr.sessions rs.sid with
    | none => exact ⟨hsid, hcomp, hcnt, sv, hsess⟩
    | some s =>
      refine ⟨hsid, hcomp, hcnt,
        { s with stdout := s.stdout ++ text, lastOutput := s.lastOutput ++ text }, ?_⟩
      show listSet rs.mgr.sessions rs.sid _ = _
      rw [hsess, hsid, listSet_set]
  | err text =>
    simp only [OutChunk.event, execEventStep, execChunkErrStep]
    cases hg : listGet rs.mgr.sessions rs.sid with
    | none => exact ⟨hsid, hcomp, hcnt, sv, hsess⟩
    | some s =>
      refine ⟨hsid, hcomp, hcnt,
        { s with stderr := s.stderr ++ text, lastOutput := s.lastOutput ++ text }, ?_⟩
      show listSet rs.mgr.sessions rs.sid _ = _
      rw [hsess, hsid, listSet_set]

theorem runShape_chunks (st0 : CommandManagerState) (sid : String)
    (cs : List OutChunk) (rs : RunState) (h : RunShape st0 sid rs) :
    RunShape st0 sid ((cs.map OutChunk.event).foldl execEventStep rs) := by
  induction cs generalizing rs with
  | nil => exact h
  | cons c cs ih =>
    exact ih (execEventStep rs c.event) (runShape_chunk st0 sid rs c h)

theorem runShape_timer (st0 : CommandManagerState) (sid : String) (rs : RunState)
    (h : RunShape st0 sid rs) :
    RunShape st0 sid (execEventStep rs CmdEvent.timerFire) := by
  obtain ⟨hsid, hcomp, hcnt, sv, hsess⟩ := h
  simp only [execEventStep, execTimerStep]
  cases hg : listGet rs.mgr.sessions rs.sid with
  | none => exact ⟨hsid, hcomp, hcnt, sv, hsess⟩
  | some s =>
    dsimp only
    by_cases hb : s.isCompleted
    · rw [if_pos hb]
      exact ⟨hsid, hcomp, hcnt, sv, hsess⟩
    · rw [if_neg hb]
      refine ⟨hsid, hcomp, hcnt, { s with isBlocked := true }, ?_⟩
      show listSet rs.mgr.sessions rs.sid _ = _
      rw [hsess, hsid, listSet_set]

theorem runShape_end_blocked (st0 : CommandManagerState) (sid : String)
    (rs : RunState) (fin : RacerEnd) (hbl : BlockedRunning rs)
    (h : RunShape st0 sid rs) :
    RunShape st0 sid (execEventStep rs fin.event) := by
  obtain ⟨hsid, hcomp, hcnt, sv, hsess⟩ := h
  obtain ⟨s, hs, h1, h2⟩ := hbl
  cases fin with
  | success t res =>
    simp only [RacerEnd.event, execEventStep, execCompleteStep, hs, h2, if_true]
    refine ⟨hsid, hcomp, hcnt, ?_⟩
    dsimp only
    rw [hsess, hsid, listSet_set]
    exact ⟨_, rfl⟩
  | failure t msg =>
    simp only [RacerEnd.event, execEventStep, execErrorStep, hs, h2, if_true]
    refine ⟨hsid, hcomp, hcnt, ?_⟩
    dsimp only
    rw [hsess, hsid, listSet_set]
    exact ⟨_, rfl⟩

theorem exec_streaming_mgr (startT : Nat) (st : CommandManagerState)
    (sched : Schedule)
    (hstream : (∃ cs, sched = Schedule.streamRunning cs) ∨
      (∃ pre post fin, sched = Schedule.streamDone pre post fin)) :
    ∃ sv, (executeCommand startT st sched).mgr =
      { st with sessionCounter := st.sessionCounter + 1,
                sessions := listSet st.sessions
                  (mkCmdId startT (st.sessionCounter + 1)) sv } := by
  rcases hstream with ⟨cs, rfl⟩ | ⟨pre, post, fin, rfl⟩
  · unfold executeCommand Schedule.events
    rw [List.foldl_append]
    have hsh := runShape_chunks st _ cs _ (runShape_init startT st)
    obtain ⟨hrace, -⟩ := chunks_fold_racing cs (initRun startT st)
      (initRun_racing startT st).1
    have hsh2 := runShape_timer st _ _ hsh
    obtain ⟨hsid, hcomp, hcnt, sv, hsess⟩ := hsh2
    refine ⟨sv, ?_⟩
    simpa [List.foldl_cons, List.foldl_nil] using
      cmdState_ext _
        { st with sessionCounter := st.sessionCounter + 1,
                  sessions := listSet st.sessions
                    (mkCmdId startT (st.sessionCounter + 1)) sv }
        hsess hcomp hcnt
  · unfold executeCommand Schedule.events
    rw [List.foldl_append, List.foldl_cons, List.foldl_append]
    have hsh := runShape_chunks st _ pre _ (runShape_init startT st)
    obtain ⟨hrace, -⟩ := chunks_fold_racing pre (initRun startT st)
      (initRun_racing startT st).1
    obtain ⟨hbl, -⟩ := timer_step_racing _ hrace
    have hsh2 := runShape_timer st _ _ hsh
    have hsh3 := runShape_chunks st _ post _ hsh2
    obtain ⟨hbl2, -⟩ := chunks_fold_blocked post _ hbl
    have hsh4 := runShape_end_blocked st _ _ fin hbl2 hsh3
    obtain ⟨hsid, hcomp, hcnt, sv, hsess⟩ := hsh4
    refine ⟨sv, cmdState_ext _ _ ?_ ?_ ?_⟩
    · simpa [List.foldl_cons, List.foldl_nil] using hsess
    · simpa [List.foldl_cons, List.foldl_nil] using hcomp
    · simpa [List.foldl_cons, List.foldl_nil] using hcnt

end SSHCommandManager

namespace SSHCommandManager

theorem exec_fast_store (startT : Nat) (st : CommandManagerState)
    (cs : List OutChunk) (fin : RacerEnd) :
    ∃ t sv, (executeCommand startT st (Schedule.fast cs fin)).mgr =
      storeCompletedSession t (mkCmdId startT (st.sessionCounter + 1))
        { st with sessionCounter := st.sessionCounter + 1,
                  sessions := listSet st.sessions
                    (mkCmdId startT (st.sessionCounter + 1)) sv } := by
  unfold executeCommand Schedule.events
  rw [List.foldl_append]
  have hsh := runShape_chunks st _ cs _ (runShape_init startT st)
  obtain ⟨hrace, -⟩ := chunks_fold_racing cs (initRun startT st)
    (initRun_racing startT st).1
  obtain ⟨s, hs, h1, h2⟩ := hrace
  obtain ⟨hsid, hcomp, hcnt, sv, hsess⟩ := hsh
  cases fin with
  | success t res =>
    refine ⟨t, ?_, ?_⟩
    rotate_left
    simp only [List.foldl_cons, List.foldl_nil, RacerEnd.event, execEventStep,
      execCompleteStep, hs, h2, Bool.false_eq_true, if_false]
    show storeCompletedSession t _ _ = _
    rw [hsid]
    congr 1
    apply cmdState_ext
    · show listSet _ _ _ = _
      rw [hsess, listSet_set]
      exact rfl
    · exact hcomp
    · exact hcnt
  | failure t msg =>
    refine ⟨t, ?_, ?_⟩
    rotate_left
    simp only [List.foldl_cons, List.foldl_nil, RacerEnd.event, execEventStep,
      execErrorStep, hs, h2, Bool.false_eq_true, if_false]
    show storeCompletedSession t _ _ = _
    rw [hsid]
    congr 1
    apply cmdState_ext
    · show listSet _ _ _ = _
      rw [hsess, listSet_set]
      exact rfl
    · exact hcomp
    · exact hcnt

theorem fresh_id_none (st : CommandManagerState) (hdom : CounterDominates st)
    (startT : Nat) :
    listGet st.sessions (mkCmdId startT (st.sessionCounter + 1)) = none ∧
    listGet st.completedSessions (mkCmdId startT (st.sessionCounter + 1)) = none := by
  have hnotin : ¬ inEither st (mkCmdId startT (st.sessionCounter + 1)) := by
    intro hmem
    obtain ⟨t, c, hc, hk⟩ := hdom _ hmem
    obtain ⟨-, hcc⟩ := mkCmdId_inj _ _ _ _ hk.symm
    omega
  constructor
  · cases hg : listGet st.sessions (mkCmdId startT (st.sessionCounter + 1)) with
    | none => rfl
    | some v => exact absurd (Or.inl (by simp [hg])) hnotin
  · cases hg : listGet st.completedSessions
        (mkCmdId startT (st.sessionCounter + 1)) with
    | none => rfl
    | some v => exact absurd (Or.inr (by simp [hg])) hnotin

theorem mid_inv (startT : Nat) (st : CommandManagerState) (hinv : MgrInv st)
    (sv : SSHCommandSession) :
    MgrInv { st with
             sessionCounter := st.sessionCounter + 1,
             sessions := (listSet st.sessions
               (mkCmdId startT (st.sessionCounter + 1)) sv) } ∧
    (∀ k, inEither st k →
      inEither { st with
                 sessionCounter := st.sessionCounter + 1,
                 sessions := (listSet st.sessions
                   (mkCmdId startT (st.sessionCounter + 1)) sv) } k) ∧
    inEither { st with
               sessionCounter := st.sessionCounter + 1,
               sessions := (listSet st.sessions
                 (mkCmdId startT (st.sessionCounter + 1)) sv) }
      (mkCmdId startT (st.sessionCounter + 1)) := by
  obtain ⟨⟨hnds, hndc⟩, hone, hdom⟩ := hinv
  obtain ⟨hs, hc⟩ := fresh_id_none st hdom startT
  have happ := listSet_of_none st.sessions _ sv hs
  refine ⟨⟨⟨?_, hndc⟩, ?_, ?_⟩, ?_, ?_⟩
  · show (listKeys (listSet st.sessions _ sv)).Nodup
    rw [happ]
    simp only [listKeys, List.map_append, List.map_cons, List.map_nil]
    rw [List.nodup_append]
    refine ⟨hnds, List.nodup_singleton _, ?_⟩
    intro a ha hb
    simp only [List.mem_singleton] at hb
    subst hb
    have ha2 : mkCmdId startT (st.sessionCounter + 1) ∈ listKeys st.sessions := ha
    rw [← listGet_isSome_iff_mem_keys, hs] at ha2
    simp at ha2
  · intro k hk
    obtain ⟨hk1, hk2⟩ := hk
    by_cases hks : k = mkCmdId startT (st.sessionCounter + 1)
    · subst hks
      exact absurd (hc ▸ hk2) (by simp)
    · rw [show (listGet (listSet st.sessions
        (mkCmdId startT (st.sessionCounter + 1)) sv) k) =
          listGet st.sessions k from listGet_set_ne _ _ _ _ hks] at hk1
      exact hone k ⟨hk1, hk2⟩
  · intro k hk
    by_cases hks : k = mkCmdId startT (st.sessionCounter + 1)
    · exact ⟨startT, st.sessionCounter + 1, le_refl _, hks⟩
    · rcases hk with hk | hk
      · rw [show (listGet (listSet st.sessions
          (mkCmdId startT (st.sessionCounter + 1)) sv) k) =
            listGet st.sessions k from listGet_set_ne _ _ _ _ hks] at hk
        obtain ⟨t, c, hle, hkeq⟩ := hdom k (Or.inl hk)
        refine ⟨t, c, ?_, hkeq⟩
        show c ≤ st.sessionCounter + 1
        omega
      · obtain ⟨t, c, hle, hkeq⟩ := hdom k (Or.inr hk)
        refine ⟨t, c, ?_, hkeq⟩
        show c ≤ st.sessionCounter + 1
        omega
  · intro k hk
    by_cases hks : k = mkCmdId startT (st.sessionCounter + 1)
    · subst hks
      left
      simp [listGet_set_self]
    · rcases hk with hk | hk
      · left
        rw [show (listGet (listSet st.sessions
          (mkCmdId startT (st.sessionCounter + 1)) sv) k) =
            listGet st.sessions k from listGet_set_ne _ _ _ _ hks]
        exact hk
      · right
        exact hk
  · left
    simp [listGet_set_self]

end SSHCommandManager

namespace SSHCommandManager

theorem active_update_preserves (sid : String) (st : CommandManagerState)
    (s v : SSHCommandSession) (hg : listGet st.sessions sid = some s)
    (hinv : MgrInv st) :
    MgrInv { st with sessions := listSet st.sessions sid v } ∧
    (∀ k, inEither st k →
      inEither { st with sessions := listSet st.sessions sid v } k) := by
  obtain ⟨⟨hnds, hndc⟩, hone, hdom⟩ := hinv
  have hsome : (listGet st.sessions sid).isSome := by simp [hg]
  have hksame : ∀ k, (listGet (listSet st.sessions sid v) k).isSome =
      (listGet st.sessions k).isSome := by
    intro k
    by_cases hks : k = sid
    · subst hks
      rw [listGet_set_self, hg]
      rfl
    · rw [listGet_set_ne _ _ _ _ hks]
  refine ⟨⟨⟨?_, hndc⟩, ?_, ?_⟩, ?_⟩
  · show (listKeys (listSet st.sessions sid v)).Nodup
    rw [listKeys_set_of_some st.sessions sid v hsome]
    exact hnds
  · intro k hk
    obtain ⟨hk1, hk2⟩ := hk
    rw [show ((listGet (listSet st.sessions sid v) k).isSome = true) ↔
        ((listGet st.sessions k).isSome = true) from by rw [hksame]] at hk1
    exact hone k ⟨hk1, hk2⟩
  · intro k hk
    rcases hk with hk | hk
    · rw [show ((listGet (listSet st.sessions sid v) k).isSome = true) ↔
          ((listGet st.sessions k).isSome = true) from by rw [hksame]] at hk
      exact hdom k (Or.inl hk)
    · exact hdom k (Or.inr hk)
  · intro k hk
    rcases hk with hk | hk
    · left
      rw [show ((listGet (listSet st.sessions sid v) k).isSome = true) ↔
          ((listGet st.sessions k).isSome = true) from by rw [hksame]]
      exact hk
    · right
      exact hk

end SSHCommandManager

open SSHCommandManager in
/-- C7: at every operation boundary of the command manager, each id lives in
at most one of the active-session map and the completed ledger (the invariant
`MgrInv`, which also carries key-uniqueness and the id-counter bound, is
preserved by `getNewOutput`, `forceTerminate`, and whole `executeCommand`
runs); an id present in either map survives every operation unless it is the
oldest ledger entry while the ledger is at its 100-entry capacity (the
capacity eviction); and the id allocated by an `executeCommand` run is in at
least one of the two maps when the run's events are done. -/
theorem id_in_exactly_one_map (op : MgrOp) (st : CommandManagerState)
    (hinv : MgrInv st) :
    MgrInv (applyOp op st) ∧
    (∀ k, inEither st k →
      inEither (applyOp op st) k ∨
        (st.completedSessions.head?.map Prod.fst = some k ∧
          100 ≤ st.completedSessions.length)) ∧
    (∀ startT sched, op = MgrOp.execRun startT sched →
      inEither (applyOp op st) (mkCmdId startT (st.sessionCounter + 1))) := by
  cases op with
  | getOut now sid =>
    have happly : applyOp (MgrOp.getOut now sid) st = (getNewOutput now sid st).2 :=
      rfl
    cases hg : listGet st.sessions sid with
    | none =>
      have heq : (getNewOutput now sid st).2 = st := by
        unfold getNewOutput
        rw [hg]
        cases hgc : listGet st.completedSessions sid <;> rfl
      rw [happly, heq]
      exact ⟨hinv, fun k hk => Or.inl hk,
        fun startT sched h => MgrOp.noConfusion h⟩
    | some s =>
      by_cases hb : s.isCompleted && s.isBlocked
      · have heq : (getNewOutput now sid st).2 = storeCompletedSession now sid st := by
          unfold getNewOutput
          rw [hg]
          dsimp only
          rw [if_pos hb]
        rw [happly, heq]
        obtain ⟨h1, h2, -⟩ := store_preserves now sid st hinv
        exact ⟨h1, h2, fun startT sched h => MgrOp.noConfusion h⟩
      · have heq : (getNewOutput now sid st).2 =
            { st with
              sessions := (listSet st.sessions sid { s with lastOutput := "" }) } := by
          unfold getNewOutput
          rw [hg]
          dsimp only
          rw [if_neg hb]
        rw [happly, heq]
        obtain ⟨h1, h2⟩ := active_update_preserves sid st s
          { s with lastOutput := "" } hg hinv
        exact ⟨h1, fun k hk => Or.inl (h2 k hk),
          fun startT sched h => MgrOp.noConfusion h⟩
  | forceTerm now sid =>
    have happly : applyOp (MgrOp.forceTerm now sid) st =
        (forceTerminate now sid st).2 := rfl
    cases hg : listGet st.sessions sid with
    | none =>
      have heq : (forceTerminate now sid st).2 = st := by
        unfold forceTerminate
        rw [hg]
      rw [happly, heq]
      exact ⟨hinv, fun k hk => Or.inl hk,
        fun startT sched h => MgrOp.noConfusion h⟩
    | some s =>
      have heq : (forceTerminate now sid st).2 = storeCompletedSession now sid
          { st with sessions := listSet st.sessions sid (termSession s) } := by
        unfold forceTerminate
        rw [hg]
      rw [happly, heq]
      obtain ⟨h1, h2⟩ := active_update_preserves sid st s (termSession s) hg hinv
      obtain ⟨h3, h4, -⟩ := store_preserves now sid
        { st with sessions := listSet st.sessions sid (termSession s) } h1
      refine ⟨h3, ?_, fun startT sched h => MgrOp.noConfusion h⟩
      intro k hk
      rcases h4 k (h2 k hk) with h | h
      · exact Or.inl h
      · exact Or.inr h
  | execRun startT sched =>
    have happly : applyOp (MgrOp.execRun startT sched) st =
        (executeCommand startT st sched).mgr := rfl
    rw [happly]
    have hmain : MgrInv (executeCommand startT st sched).mgr ∧
        (∀ k, inEither st k →
          inEither (executeCommand startT st sched).mgr k ∨
            (st.completedSessions.head?.map Prod.fst = some k ∧
              100 ≤ st.completedSessions.length)) ∧
        inEither (executeCommand startT st sched).mgr
          (mkCmdId startT (st.sessionCounter + 1)) := by
      cases sched with
      | fast cs fin =>
        obtain ⟨t, sv, heq⟩ := exec_fast_store startT st cs fin
        rw [heq]
        obtain ⟨hm1, hm2, hm3⟩ := mid_inv startT st hinv sv
        obtain ⟨h1, h2, h3⟩ := store_preserves t
          (mkCmdId startT (st.sessionCounter + 1)) _ hm1
        refine ⟨h1, ?_, ?_⟩
        · intro k hk
          rcases h2 k (hm2 k hk) with h | h
          · exact Or.inl h
          · exact Or.inr h
        · exact h3 (by simp [listGet_set_self])
      | streamRunning cs =>
        obtain ⟨sv, heq⟩ := exec_streaming_mgr startT st
          (Schedule.streamRunning cs) (Or.inl ⟨cs, rfl⟩)
        rw [heq]
        obtain ⟨hm1, hm2, hm3⟩ := mid_inv startT st hinv sv
        exact ⟨hm1, fun k hk => Or.inl (hm2 k hk), hm3⟩
      | streamDone pre post fin =>
        obtain ⟨sv, heq⟩ := exec_streaming_mgr startT st
          (Schedule.streamDone pre post fin) (Or.inr ⟨pre, post, fin, rfl⟩)
        rw [heq]
        obtain ⟨hm1, hm2, hm3⟩ := mid_inv startT st hinv sv
        exact ⟨hm1, fun k hk => Or.inl (hm2 k hk), hm3⟩
    refine ⟨hmain.1, hmain.2.1, ?_⟩
    intro startT' sched' h
    cases h
    exact hmain.2.2

open SSHCommandManager in
/-- Witness for `id_in_exactly_one_map`: the empty manager state satisfies
the invariant, and the theorem applies to a `getNewOutput` operation on it. -/
theorem id_in_exactly_one_map_witness :
    MgrInv emptyCmdState ∧
    (MgrInv (applyOp (MgrOp.getOut 0 "x") emptyCmdState) ∧
     (∀ k, inEither emptyCmdState k →
       inEither (applyOp (MgrOp.getOut 0 "x") emptyCmdState) k ∨
         (emptyCmdState.completedSessions.head?.map Prod.fst = some k ∧
           100 ≤ emptyCmdState.completedSessions.length)) ∧
     (∀ startT sched, MgrOp.getOut 0 "x" = MgrOp.execRun startT sched →
       inEither (applyOp (MgrOp.getOut 0 "x") emptyCmdState)
         (mkCmdId startT (emptyCmdState.sessionCounter + 1)))) :=
  have hinv : MgrInv emptyCmdState := by
    refine ⟨⟨by simp [emptyCmdState, listKeys], by simp [emptyCmdState, listKeys]⟩,
      ?_, ?_⟩
    · intro k hk
      obtain ⟨h1, -⟩ := hk
      simp [emptyCmdState, listGet] at h1
    · intro k hk
      rcases hk with hk | hk <;> simp [emptyCmdState, listGet] at hk
  ⟨hinv, id_in_exactly_one_map (MgrOp.getOut 0 "x") emptyCmdState hinv⟩
